import Mathlib

/-!
Verification development for the abbs-meta repository.

This file gives a shallow embedding, in Lean, of the parts of the
repository that the checked claims are about:

* `src/bashvar.py` — the restricted bash-assignment grammar
  (pyparsing definitions, lines 14-85), the expansion evaluator
  `combine_value` (lines 113-165), `eval_bashvar_literal`
  (lines 167-176), the shell fallback `eval_bashvar_ext`
  (lines 183-208) and the wrapper `eval_bashvar` (lines 210-226);
* `src/abbsmeta.py` — the package data model (`Package.load_defines`,
  `PackageGroup.package`, `LocalRepo.read_package_info`),
  the catalog writer `LocalRepo.update_package`, and the change
  selection logic of `LocalRepo.scan_abbs_tree` and
  `SourceRepo.scan_abbs_tree`.

Python strings are embedded as `List Char` (the sources are ASCII
oriented; character semantics of Python `re` such as the dot token not
matching a newline are embedded explicitly).  Machine integers do not
occur in the modelled code paths; offsets are `Int`.  Fallible code
returns `Option`.
-/

/-- Newline character, written via a named constant for readability. -/
def nlC : Char := '\n'

/-- The single-quote character (code 39). -/
def sqC : Char := Char.ofNat 39

/-- The double-quote character (code 34). -/
def dqC : Char := Char.ofNat 34

/-- The backquote character (code 96). -/
def bqC : Char := Char.ofNat 96

/-- The backslash character. -/
def bsC : Char := '\\'

/-- The dollar character. -/
def dollarC : Char := '$'

abbrev Cs := List Char

/-- Order-preserving de-duplication, embedding `uniq` (bashvar.py lines
178-181 and abbsmeta.py lines 37-40): keeps the first occurrence of
every element. -/
def uniq {α : Type} [DecidableEq α] : List α → List α :=
  go []
where
  go (seen : List α) : List α → List α
    | [] => []
    | x :: xs => if x ∈ seen then go seen xs else x :: go (x :: seen) xs

/-! ## Regex machinery

`_compile_pattern` (bashvar.py lines 98-111) escapes the glob pattern
with `re.escape` and rewrites the escaped wildcards: `?` becomes the
regex dot and `*` becomes a greedy or lazy regex star over dots.  The
resulting regular expressions consist only of literal characters, the
dot, and a starred dot; the Python dot does not match a newline.  We
embed exactly this token language. -/

/-- One token of the compiled regular expression. -/
inductive RTok : Type
  | lit (c : Char)
  | dot
  | star
deriving DecidableEq, Repr

/-- Embeds the pattern translation of `_compile_pattern`
(bashvar.py lines 99, 101, 107-108): `?` to dot, `*` to a starred dot,
every other character to a literal (the `re.escape` call makes every
other character literal).  Whether stars are greedy or lazy is a
property of the matching direction, carried separately as the `gr`
flag of `mEnd` below. -/
def translatePat (p : Cs) : List RTok :=
  p.map fun c => if c = '?' then RTok.dot else if c = '*' then RTok.star else RTok.lit c

/-- Length of the longest newline-free prefix: the furthest a regex
dot-star can reach in Python `re` (the dot does not match a newline). -/
def nlRun (s : Cs) : Nat := (s.takeWhile fun c => c ≠ nlC).length

/-- Backtracking search for a starred dot, parameterised by the matcher
`next` of the remaining pattern.  `gr = true` is the greedy star `.*`
(tries the longest consumption first), `gr = false` the lazy star `.*?`
(tries the empty consumption first); in both cases the star cannot
consume a newline.  This reproduces the backtracking preference order
of Python `re` on the token language produced by `_compile_pattern`. -/
def mEndStar : Bool → (Cs → Option Nat) → Cs → Option Nat
  | _, next, [] => next []
  | true, next, x :: s =>
    (match (if x = nlC then none else (mEndStar true next s).map (· + 1)) with
     | some v => some v
     | none => next (x :: s))
  | false, next, x :: s =>
    (match next (x :: s) with
     | some v => some v
     | none => if x = nlC then none else (mEndStar false next s).map (· + 1))

/-- End position (number of characters consumed) of the preferred match
of the compiled pattern `p` at the start of `s`, as Python `re` finds
it by backtracking: `some e` when the pattern matches a prefix of `s`
of length `e`, `none` when it matches no prefix.  `gr` selects greedy
(`.*`) or lazy (`.*?`) stars, which is exactly how `_compile_pattern`
distinguishes the longest-match and shortest-match operators. -/
def mEnd (gr : Bool) : List RTok → Cs → Option Nat
  | [], _ => some 0
  | RTok.lit _ :: _, [] => none
  | RTok.lit c :: p, x :: s => if x = c then (mEnd gr p s).map (· + 1) else none
  | RTok.dot :: _, [] => none
  | RTok.dot :: p, x :: s => if x = nlC then none else (mEnd gr p s).map (· + 1)
  | RTok.star :: p, s => mEndStar gr (mEnd gr p) s

/-- Greediness-erased helper for a starred dot: does the remaining
pattern match after the star consumed some newline-free prefix? -/
def fmStar (next : Cs → Bool) : Cs → Bool
  | [] => next []
  | x :: s => next (x :: s) || (decide (x ≠ nlC) && fmStar next s)

/-- Complete anchored match: does the compiled pattern match all of
`s`?  Greediness is irrelevant for the existence of a complete match
(Python backtracking is exhaustive), so this is the matching relation
that the shortest/longest selection of `_compile_pattern` ranges
over. -/
def fm : List RTok → Cs → Bool
  | [], s => s.isEmpty
  | RTok.lit _ :: _, [] => false
  | RTok.lit c :: p, x :: s => decide (x = c) && fm p s
  | RTok.dot :: _, [] => false
  | RTok.dot :: p, x :: s => decide (x ≠ nlC) && fm p s
  | RTok.star :: p, s => fmStar (fm p) s

/-! Operator-level embeddings of the branches of `combine_value`. -/

/-- Embeds the `#`/`##` branch of `combine_value` (bashvar.py lines
144-149): the regex is the translated pattern anchored at the start
(`mode='start'`), lazy for `#` and greedy for `##`; on a match the
matched prefix is removed (`var[match.end():]`). -/
def opTrimStart (greedy : Bool) (pat : Cs) (v : Cs) : Cs :=
  match mEnd greedy (translatePat pat) v with
  | some e => v.drop e
  | none => v

/-- The Python `$` anchor without `re.MULTILINE`: it accepts the end of
the string, and also the position just before one final newline. -/
def fmDollar (p : List RTok) (t : Cs) : Bool :=
  fm p t || (decide (t.getLast? = some nlC) && fm p t.dropLast)

/-- Embeds the `%`/`%%` branch of `combine_value` (bashvar.py lines
150-155) together with `_compile_pattern` in `mode='end'` (lines
100-105): the regex is `^.*?(X)$` for `%%` and `^.*(X)$` for `%`,
where `X` is the translated pattern with greedy stars.  The leading
dot-star can reach only positions inside the first line (the Python
dot does not match a newline); at each reachable position the
parenthesised group must match up to the `$` anchor, and backtracking
inside the group is exhaustive, so group placement is a pure
existence question (`fmDollar`).  The lazy leading star of `%%` picks
the first reachable position, the greedy one of `%` the last; the
result is `var[:match.start(1)]`. -/
def opTrimEnd (greedy : Bool) (pat : Cs) (v : Cs) : Cs :=
  let rx := translatePat pat
  let cands := (List.range (nlRun v + 1)).filter fun i => fmDollar rx (v.drop i)
  match (if greedy then cands.head? else cands.getLast?) with
  | some i => v.take i
  | none => v

/-- Leftmost preferred match of the compiled pattern in `s`: Python
`re` scanning tries start positions from the left and at each position
takes the backtracking-preferred (greedy) match. -/
def firstMatch (rx : List RTok) (s : Cs) : Option (Nat × Nat) :=
  (List.range (s.length + 1)).findSome? fun i => (mEnd true rx (s.drop i)).map fun e => (i, e)

/-- Embeds the `/` branch of `combine_value` (bashvar.py lines
137-141): `pattern.sub(newstring, var, count=1)` replaces the leftmost
match (greedy stars) and leaves everything else unchanged. -/
def opSubstFirst (rx : List RTok) (repl : Cs) (s : Cs) : Cs :=
  match firstMatch rx s with
  | some (i, e) => s.take i ++ repl ++ s.drop (i + e)
  | none => s

/-- Scanning loop of `pattern.sub(newstring, var)` with no count limit
(bashvar.py line 143): at each position try the preferred match; a
nonempty match is replaced and scanning resumes after it; an empty
match is replaced and the following character is copied (the empty
match handling of Python 3.7 and later).  `fuel` only bounds the
recursion; `s.length + 1` is always enough. -/
def substAllGo (rx : List RTok) (repl : Cs) : Nat → Cs → Cs
  | 0, s => s
  | _ + 1, [] => match mEnd true rx [] with
    | some _ => repl
    | none => []
  | fuel + 1, x :: s =>
    match mEnd true rx (x :: s) with
    | some 0 => repl ++ x :: substAllGo rx repl fuel s
    | some (e + 1) => repl ++ substAllGo rx repl fuel ((x :: s).drop (e + 1))
    | none => x :: substAllGo rx repl fuel s

/-- Embeds the `//` branch of `combine_value` (bashvar.py lines
142-143). -/
def opSubstAll (rx : List RTok) (repl : Cs) (s : Cs) : Cs :=
  substAllGo rx repl (s.length + 1) s

/-! ## The assignment grammar

Shallow embedding of the pyparsing grammar of bashvar.py (lines
14-85).  The grammar objects `varassign` and `line` carry
`leaveWhitespace()`, which pyparsing applies recursively, so no
implicit whitespace skipping happens anywhere inside a line; the only
whitespace is the explicit `whitespace`/`optwhitespace` elements.
pyparsing matching is PEG-like: ordered alternatives, longest-munch
character classes, and no backtracking into an element that already
succeeded.  The parser below is a direct recursive-descent transcription
with those semantics. -/

/-- Attribute of a parameter expansion: which `exptype` branch of
`expansion_param` (bashvar.py lines 25-48) was parsed. -/
inductive ExpAttr : Type
  | plain
  | colon (off : Int) (len : Option Int)
  | slash (all : Bool) (pat : Cs) (repl : Cs)
  | trimS (greedy : Bool) (pat : Cs)
  | trimE (greedy : Bool) (pat : Cs)
deriving DecidableEq, Repr

/-- A parsed `$`-expansion: variable name plus attribute. -/
structure ExpE : Type where
  name : String
  attr : ExpAttr
deriving DecidableEq, Repr

/-- Token inside a double-quoted string: literal characters (from
escapes and plain runs) or an expansion.  The grammar nests no quotes
inside double quotes, so this type is flat. -/
inductive DTok : Type
  | dlit (s : Cs)
  | dexp (e : ExpE)
deriving DecidableEq, Repr

/-- One `texttoken` of `varvalue` (bashvar.py lines 67-71). -/
inductive VTok : Type
  | lit (s : Cs)
  | squo (s : Cs)
  | dquo (items : List DTok)
  | vexp (e : ExpE)
deriving DecidableEq, Repr

/-- The `whitespace` element matches spaces and tabs only
(bashvar.py line 16). -/
def isWsC (c : Char) : Bool := c = ' ' || c = '\t'

/-- `optwhitespace`: optional run of spaces and tabs. -/
def skipOptWs (s : Cs) : Cs := s.dropWhile isWsC

/-- First character of `varname`: ASCII letter or underscore
(bashvar.py line 21, `pp.alphas` is ASCII). -/
def isAlphaU (c : Char) : Bool :=
  ('a' ≤ c && c ≤ 'z') || ('A' ≤ c && c ≤ 'Z') || c = '_'

/-- ASCII digit. -/
def isDigitC (c : Char) : Bool := '0' ≤ c && c ≤ '9'

/-- Body character of `varname`. -/
def isAlnumU (c : Char) : Bool := isAlphaU c || isDigitC c

/-- `varname`: `Word(alphas + underscore, alphanums + underscore)`,
longest munch. -/
def pVarname : Cs → Option (String × Cs)
  | [] => none
  | c :: r =>
    if isAlphaU c then some (String.mk (c :: r.takeWhile isAlnumU), r.dropWhile isAlnumU)
    else none

/-- Characters allowed by `substsafe = CharsNotIn('/#%[}\x27\x22\x60\x5c')`
(bashvar.py line 23). -/
def isSubstsafe (c : Char) : Bool :=
  !(c = '/' || c = '#' || c = '%' || c = '[' || c = '}' ||
    c = sqC || c = dqC || c = bqC || c = bsC)

/-- Value of a nonempty digit run. -/
def natOfDigits (ds : Cs) : Nat := ds.foldl (fun a c => a * 10 + (c.toNat - 48)) 0

/-- `Word(nums)`: one or more digits, longest munch. -/
def pDigits (s : Cs) : Option (Nat × Cs) :=
  let ds := s.takeWhile isDigitC
  if ds.isEmpty then none else some (natOfDigits ds, s.dropWhile isDigitC)

/-- The offset group of the substring branch (bashvar.py lines 32-35):
either digits, or mandatory whitespace followed by a minus sign and
digits. -/
def pOffset (s : Cs) : Option (Int × Cs) :=
  match pDigits s with
  | some (n, r) => some ((n : Int), r)
  | none =>
    let s1 := skipOptWs s
    if s1.length < s.length then
      match s1 with
      | c :: r => if c = '-' then (pDigits r).map fun (n, r2) => (-(n : Int), r2) else none
      | [] => none
    else none

/-- `integer` (bashvar.py line 19): digits or minus-digits, no
whitespace. -/
def pInteger (s : Cs) : Option (Int × Cs) :=
  match pDigits s with
  | some (n, r) => some ((n : Int), r)
  | none =>
    match s with
    | c :: r => if c = '-' then (pDigits r).map fun (n, r2) => (-(n : Int), r2) else none
    | [] => none

/-- The optional expansion body after the variable name inside braces
(bashvar.py lines 31-45): the three `exptype` branches start with
distinct characters, so the longest-match combination of the source
reduces to a dispatch on the first character; when no branch matches
the optional element is skipped and the position is unchanged. -/
def pExpBody (s : Cs) : ExpAttr × Cs :=
  match s with
  | ':' :: r =>
    (match pOffset r with
     | some (off, r1) =>
       (match r1 with
        | c :: r2 =>
          if c = ':' then
            match pInteger r2 with
            | some (l, r3) => (ExpAttr.colon off (some l), r3)
            | none => (ExpAttr.colon off none, r1)
          else (ExpAttr.colon off none, r1)
        | [] => (ExpAttr.colon off none, r1))
     | none => (ExpAttr.plain, s))
  | '/' :: r =>
    let (all, r0) : Bool × Cs :=
      match r with
      | c :: r1 => if c = '/' then (true, r1) else (false, r)
      | [] => (false, r)
    let pat := r0.takeWhile isSubstsafe
    let r1 := r0.dropWhile isSubstsafe
    if pat.isEmpty then (ExpAttr.slash all [] [], r0)
    else
      match r1 with
      | c :: r2 =>
        if c = '/' then
          (ExpAttr.slash all pat (r2.takeWhile isSubstsafe), r2.dropWhile isSubstsafe)
        else (ExpAttr.slash all pat [], r1)
      | [] => (ExpAttr.slash all pat [], r1)
  | '#' :: r =>
    let (g, r0) : Bool × Cs :=
      match r with
      | c :: r1 => if c = '#' then (true, r1) else (false, r)
      | [] => (false, r)
    (ExpAttr.trimS g (r0.takeWhile isSubstsafe), r0.dropWhile isSubstsafe)
  | '%' :: r =>
    let (g, r0) : Bool × Cs :=
      match r with
      | c :: r1 => if c = '%' then (true, r1) else (false, r)
      | [] => (false, r)
    (ExpAttr.trimE g (r0.takeWhile isSubstsafe), r0.dropWhile isSubstsafe)
  | _ => (ExpAttr.plain, s)

/-- The braced alternative of `expansion_param`. -/
def pBraced (s : Cs) : Option (ExpE × Cs) :=
  match s with
  | '{' :: r =>
    (pVarname r).bind fun (nm, r1) =>
      let (attr, r2) := pExpBody r1
      match r2 with
      | c :: r3 => if c = '}' then some (⟨nm, attr⟩, r3) else none
      | [] => none
  | _ => none

/-- `expansion_param` (bashvar.py lines 25-48): a dollar sign followed
by either the braced form or a bare variable name, in that order. -/
def pExpansion (s : Cs) : Option (ExpE × Cs) :=
  match s with
  | c :: r =>
    if c = dollarC then
      match pBraced r with
      | some res => some res
      | none => (pVarname r).map fun (nm, r2) => (⟨nm, ExpAttr.plain⟩, r2)
    else none
  | [] => none

/-- `singlequote` (bashvar.py lines 50-54): quote, optional run of
non-quote characters (newlines included), closing quote. -/
def pSquote (s : Cs) : Option (VTok × Cs) :=
  match s with
  | c :: r =>
    if c = sqC then
      match r.dropWhile (fun c => c ≠ sqC) with
      | _ :: r2 => some (VTok.squo (r.takeWhile fun c => c ≠ sqC), r2)
      | [] => none
    else none
  | [] => none

/-- Characters matched by the plain run inside double quotes:
`CharsNotIn('$\x60\x5c*\x22')` (bashvar.py line 62). -/
def isDqPlain (c : Char) : Bool :=
  !(c = dollarC || c = bqC || c = bsC || c = '*' || c = dqC)

/-- Item loop of `doublequote` (bashvar.py lines 59-65): escape
sequences first, then expansions, then plain runs; the loop stops at
the first position where no alternative matches. -/
def pDqItems : Nat → Cs → List DTok × Cs
  | 0, s => ([], s)
  | fuel + 1, s =>
    match s with
    | [] => ([], [])
    | c :: r =>
      if c = bsC then
        match r with
        | d :: r2 =>
          if d = dollarC || d = bqC || d = dqC || d = bsC then
            let (ts, rest) := pDqItems fuel r2
            (DTok.dlit [d] :: ts, rest)
          else if d = nlC then pDqItems fuel r2
          else ([], s)
        | [] => ([], s)
      else if c = dollarC then
        match pExpansion s with
        | some (e, rest) =>
          let (ts, r2) := pDqItems fuel rest
          (DTok.dexp e :: ts, r2)
        | none => ([], s)
      else if isDqPlain c then
        let (ts, r2) := pDqItems fuel (s.dropWhile isDqPlain)
        (DTok.dlit (s.takeWhile isDqPlain) :: ts, r2)
      else ([], s)

/-- `doublequote` (bashvar.py lines 59-65). -/
def pDquote (fuel : Nat) (s : Cs) : Option (VTok × Cs) :=
  match s with
  | c :: r =>
    if c = dqC then
      let (ts, r1) := pDqItems fuel r
      match r1 with
      | c2 :: r2 => if c2 = dqC then some (VTok.dquo ts, r2) else none
      | [] => none
    else none
  | [] => none

/-- Characters allowed in an unquoted literal run:
`CharsNotIn('~{}()$\x27\x22\x60\x5c*?[] \t\n')` (bashvar.py line 69). -/
def isTextLit (c : Char) : Bool :=
  !(c = '~' || c = '{' || c = '}' || c = '(' || c = ')' || c = dollarC ||
    c = sqC || c = dqC || c = bqC || c = bsC || c = '*' || c = '?' ||
    c = '[' || c = ']' || c = ' ' || c = '\t' || c = nlC)

/-- `texttoken` (bashvar.py lines 67-70): ordered alternatives. -/
def pTextTok (fuel : Nat) (s : Cs) : Option (VTok × Cs) :=
  match pSquote s with
  | some r => some r
  | none =>
    match pDquote fuel s with
    | some r => some r
    | none =>
      match pExpansion s with
      | some (e, rest) => some (VTok.vexp e, rest)
      | none =>
        let run := s.takeWhile isTextLit
        if run.isEmpty then none else some (VTok.lit run, s.dropWhile isTextLit)

/-- `varvalue`: zero or more `texttoken`s; every token consumes at
least one character, so `fuel = length + 1` is always enough. -/
def pValueToks : Nat → Cs → List VTok × Cs
  | 0, s => ([], s)
  | fuel + 1, s =>
    match pTextTok fuel s with
    | some (t, r) =>
      let (ts, r2) := pValueToks fuel r
      (t :: ts, r2)
    | none => ([], s)

/-- One parsed assignment: name and value tokens. -/
abbrev AssignT := String × List VTok

/-- `varassign` (bashvar.py lines 72-76): name, equals sign, value.
Only the plain `=` operator exists in the grammar. -/
def pVarassign (s : Cs) : Option (AssignT × Cs) :=
  (pVarname s).bind fun (nm, r1) =>
    match r1 with
    | c :: r2 =>
      if c = '=' then
        let (ts, r3) := pValueToks (r2.length + 1) r2
        some ((nm, ts), r3)
      else none
    | [] => none

/-- `pp.lineEnd`: a newline, or the end of the input (which pyparsing
consumes as a virtual character, ending the loop next round). -/
def pLineEnd (s : Cs) : Option Cs :=
  match s with
  | [] => some []
  | c :: r => if c = nlC then some r else none

/-- Comment: hash sign followed by the rest of the line
(bashvar.py line 18). -/
def pComment (s : Cs) : Option Cs :=
  match s with
  | c :: r => if c = '#' then some (r.dropWhile fun c => c ≠ nlC) else none
  | [] => none

/-- `line` (bashvar.py lines 78-83): optional whitespace, optional
assignment, optional whitespace, optional comment, line end.  A line
whose leftover content cannot be consumed makes the whole parse fail
(there is no recovery), which is the `ParseException` route. -/
def pLine (s : Cs) : Option (Option AssignT × Cs) :=
  let s1 := skipOptWs s
  let (asn, s2) : Option AssignT × Cs :=
    match pVarassign s1 with
    | some (a, r) => (some a, r)
    | none => (none, s1)
  let s3 := skipOptWs s2
  let s4 := match pComment s3 with
    | some r => r
    | none => s3
  (pLineEnd s4).map fun r => (asn, r)

/-- Line loop with fuel; every line consumes at least one character
except the final one, so `length + 1` lines always suffice. -/
def parseLinesGo : Nat → Cs → Option (List (Option AssignT))
  | 0, _ => none
  | fuel + 1, s =>
    if s.isEmpty then some []
    else (pLine s).bind fun (a, r) => (parseLinesGo fuel r).map (a :: ·)

/-- `bashvarfile.parseString(source, parseAll=True)` (bashvar.py
lines 85, 168): `some` is a successful parse, `none` is
`ParseException`. -/
def parseBashvarFile (s : Cs) : Option (List (Option AssignT)) :=
  parseLinesGo (s.length + 1) s

/-! ## Evaluation -/

/-- The ordered variable mapping (`collections.OrderedDict`). -/
abbrev VarMap := List (String × String)

/-- Lookup in the ordered mapping. -/
def odLookup (m : VarMap) (k : String) : Option String :=
  (m.find? fun p => p.1 = k).map (·.2)

/-- `variables[name] = val` on an `OrderedDict`: an existing key keeps
its position, a new key is appended. -/
def odSet (m : VarMap) (k v : String) : VarMap :=
  if m.any (fun p => p.1 = k) then m.map fun p => if p.1 = k then (k, v) else p
  else m ++ [(k, v)]

/-- The two warning categories of bashvar.py (lines 89-93). -/
inductive Warn : Type
  | undefVar (name : String)
  | bashErr (msg : String)
deriving DecidableEq, Repr

/-- Python list slicing `s[a:b]` with optional and possibly negative
bounds (no step), used by the substring branch of `combine_value`
(bashvar.py lines 126-136). -/
def pySlice (s : Cs) (a? b? : Option Int) : Cs :=
  let n : Int := s.length
  let norm : Int → Int := fun i => if i < 0 then max 0 (n + i) else min n i
  let a := match a? with
    | none => 0
    | some i => norm i
  let b := match b? with
    | none => n
    | some i => norm i
  if a < b then (s.drop a.toNat).take (b - a).toNat else []

/-- Applies one expansion attribute to the value of a defined variable,
embedding the `exptype` dispatch of `combine_value` (bashvar.py lines
123-155).  The substring branch is Python slicing:
`var[offset:offset+length]` for a nonnegative length,
`var[offset:length]` for a negative one, `var[offset:]` with no
length. -/
def applyAttr : ExpAttr → Cs → Cs
  | ExpAttr.plain, v => v
  | ExpAttr.colon off len, v =>
    (match len with
     | none => pySlice v (some off) none
     | some l => if 0 ≤ l then pySlice v (some off) (some (off + l))
                 else pySlice v (some off) (some l))
  | ExpAttr.slash all pat rep, v =>
    if all then opSubstAll (translatePat pat) rep v else opSubstFirst (translatePat pat) rep v
  | ExpAttr.trimS g pat, v => opTrimStart g pat v
  | ExpAttr.trimE g pat, v => opTrimEnd g pat v

/-- Expansion of one `$`-reference (bashvar.py lines 119-158): a
defined variable is expanded per its attribute; an undefined one
expands to nothing and raises the undefined-variable warning. -/
def evalExp (vars : VarMap) (e : ExpE) : Cs × List Warn :=
  match odLookup vars e.name with
  | some val => (applyAttr e.attr val.data, [])
  | none => ([], [Warn.undefVar e.name])

/-- Evaluation of the items of a double-quoted string. -/
def evalDToks (vars : VarMap) : List DTok → Cs × List Warn
  | [] => ([], [])
  | t :: ts =>
    let hd : Cs × List Warn :=
      match t with
      | DTok.dlit s => (s, [])
      | DTok.dexp e => evalExp vars e
    let tl := evalDToks vars ts
    (hd.1 ++ tl.1, hd.2 ++ tl.2)

/-- Evaluation of a `varvalue` token list, embedding the concatenating
recursion of `combine_value` (bashvar.py lines 113-165). -/
def evalVToks (vars : VarMap) : List VTok → Cs × List Warn
  | [] => ([], [])
  | t :: ts =>
    let hd : Cs × List Warn :=
      match t with
      | VTok.lit s => (s, [])
      | VTok.squo s => (s, [])
      | VTok.dquo items => evalDToks vars items
      | VTok.vexp e => evalExp vars e
    let tl := evalVToks vars ts
    (hd.1 ++ tl.1, hd.2 ++ tl.2)

/-- The per-line step of `eval_bashvar_literal` (bashvar.py lines
170-175): an empty line leaves the state alone; an assignment line
evaluates the value tokens against the variables so far and stores the
result under the name. -/
def evalLineStep (acc : VarMap × List Warn) (ln : Option AssignT) : VarMap × List Warn :=
  match ln with
  | none => acc
  | some (nm, toks) =>
    let r := evalVToks acc.1 toks
    (odSet acc.1 nm (String.mk r.1), acc.2 ++ r.2)

/-- `eval_bashvar_literal` (bashvar.py lines 167-176) together with
the warnings it raises: `none` is `ParseException`; otherwise the
lines are evaluated top to bottom into an ordered mapping. -/
def evalBashvarLiteralW (src : Cs) : Option (VarMap × List Warn) :=
  (parseBashvarFile src).map fun lns => lns.foldl evalLineStep ([], [])

/-- The mapping returned by `eval_bashvar_literal`. -/
def eval_bashvar_literal (src : Cs) : Option VarMap :=
  (evalBashvarLiteralW src).map (·.1)

/-- Helper to write a braced expansion fragment. -/
def braceExp (inner : String) : Cs := [dollarC, '{'] ++ inner.data ++ ['}']

/-! ## The shell fallback evaluator

`eval_bashvar_ext` (bashvar.py lines 183-208) feeds the source plus an
echo trailer to a `bash -r` subprocess.  The subprocess itself is
external; it enters the model as an oracle mapping the source text to
the produced stdout lines and the (rstripped) stderr.  Everything the
Python function computes around the subprocess — the `re_variable`
scan, the de-duplication, the newline transport decoding, the warning
logic and the final zip — is embedded directly. -/

/-- Python `\s` on the characters that can occur inside one line. -/
def isPyWs (c : Char) : Bool :=
  c = ' ' || c = '\t' || c = nlC || c = '\r' || c = Char.ofNat 11 || c = Char.ofNat 12

/-- `re_variable.match(ln)` (bashvar.py line 14): optional whitespace,
a variable name, an equals sign; returns the name. -/
def matchReVariable (ln : Cs) : Option String :=
  (pVarname (ln.dropWhile isPyWs)).bind fun (nm, r) =>
    match r with
    | c :: _ => if c = '=' then some nm else none
    | [] => none

/-- Split on newlines (the per-line iteration of
`source.splitlines(True)`; terminators are irrelevant to the anchored
`re_variable` match). -/
def splitOnNl (s : Cs) : List Cs :=
  go (s.length + 1) s
where
  go : Nat → Cs → List Cs
    | 0, _ => []
    | _ + 1, [] => [[]]
    | fuel + 1, s =>
      (s.takeWhile fun c => c ≠ nlC) ::
        (match s.dropWhile (fun c => c ≠ nlC) with
         | [] => []
         | _ :: r => go fuel r)

/-- The variable names the fallback will echo: first-occurrence order,
de-duplicated (bashvar.py lines 185-193). -/
def extVarNames (src : Cs) : List String :=
  uniq ((splitOnNl src).filterMap matchReVariable)

/-- Bash-side transport encoding performed by the generated trailer
`echo "${v//$\x27\n\x27/\x5cn}"` (bashvar.py line 196): every newline
character in the value is printed as backslash-n (the bash builtin
echo prints all other characters, backslashes included, verbatim). -/
def extEncodeNl (v : Cs) : Cs :=
  v.flatMap fun c => if c = nlC then [bsC, 'n'] else [c]

/-- Python-side transport decoding `l.replace(backslash-n, newline)`
(bashvar.py line 205): non-overlapping, left to right. -/
def extDecodeNl : Cs → Cs
  | [] => []
  | [c] => [c]
  | c :: d :: r =>
    if c = bsC ∧ d = 'n' then nlC :: extDecodeNl r
    else c :: extDecodeNl (d :: r)

/-- Observable behaviour of the external `bash -r` subprocess: stdout
split into lines, and the rstripped stderr (`none` when stderr was
empty). -/
structure BashOut : Type where
  outLines : List Cs
  errs : Option String
deriving DecidableEq, Repr

/-- `eval_bashvar_ext` (bashvar.py lines 183-208) over a subprocess
oracle: collect the assigned names, decode the echoed lines, raise a
`BashErrorWarning` for a nonempty stderr and another when the output
arity is unexpected, and zip names with values into an ordered
mapping. -/
def evalBashvarExtW (oracle : Cs → BashOut) (src : Cs) : VarMap × List Warn :=
  let var := extVarNames src
  let out := oracle src
  let lines := out.outLines.map extDecodeNl
  let w1 : List Warn :=
    match out.errs with
    | some e => [Warn.bashErr e]
    | none => []
  let w2 : List Warn :=
    if var.length ≠ lines.length ∧ out.errs = none then [Warn.bashErr "bash output not expected"]
    else []
  ((var.zip lines).map (fun p => (p.1, String.mk p.2)), w1 ++ w2)

/-- The mapping and warnings of whichever evaluator `eval_bashvar`
ends up running (bashvar.py lines 212-215): the grammar evaluator, or
on `ParseException` the shell fallback. -/
def evalBashvarPathW (oracle : Cs → BashOut) (src : Cs) : VarMap × List Warn :=
  match evalBashvarLiteralW src with
  | some r => r
  | none => evalBashvarExtW oracle src

/-- Selects the messages that `eval_bashvar` collects into `msgs`:
exactly the `BashErrorWarning` ones (bashvar.py lines 220-222);
`VariableWarning` entries are only logged. -/
def bashMsg : Warn → Option String
  | Warn.bashErr m => some m
  | _ => none

/-- `eval_bashvar(source, filename, msg=True)` (bashvar.py lines
210-226): the mapping of the executed path, paired with the joined
`BashErrorWarning` messages, or `none` when there were none. -/
def eval_bashvar_msg (oracle : Cs → BashOut) (src : Cs) : VarMap × Option String :=
  let r := evalBashvarPathW oracle src
  let msgs := r.2.filterMap bashMsg
  (r.1, if msgs.isEmpty then none else some (String.intercalate "\n" msgs))

/-! ## The package model (abbsmeta.py)

Embeddings of `re_packagerel`, `re_relvars`, `Package.load_defines`,
`PackageGroup.package` and `read_package_info`. -/

/-- First character of a dependency name in `re_packagerel`
(abbsmeta.py lines 21-22): `[a-z0-9]`. -/
def isRelFirst (c : Char) : Bool := ('a' ≤ c && c ≤ 'z') || isDigitC c

/-- Later characters of a dependency name: `[a-z0-9+.-]`. -/
def isRelName (c : Char) : Bool := isRelFirst c || c = '+' || c = '.' || c = '-'

/-- First character of the relational operator: `[<>=]`. -/
def isRelOp1 (c : Char) : Bool := c = '<' || c = '>' || c = '='

/-- Version characters: `[0-9A-Za-z.+~:-]`. -/
def isRelVer (c : Char) : Bool :=
  isDigitC c || ('a' ≤ c && c ≤ 'z') || ('A' ≤ c && c ≤ 'Z') ||
  c = '.' || c = '+' || c = '~' || c = ':' || c = '-'

/-- Completion of a `re_packagerel` match after the name group: the
optional operator group is tried first (a `[<>=]` character followed
by an equals sign), then the empty alternative; the version group is
greedy and must reach the end, so it succeeds exactly when the rest is
all version characters. -/
def relTail (rest : Cs) : Option (Option String × String) :=
  match
    (match rest with
     | a :: b :: r2 =>
       if isRelOp1 a && b = '=' && r2.all isRelVer then
         some (some (String.mk [a, b]), String.mk r2)
       else none
     | _ => none)
  with
  | some res => some res
  | none => if rest.all isRelVer then some (none, String.mk rest) else none

/-- `re_packagerel.match(pkgname)` (abbsmeta.py lines 21-22), with the
backtracking order of Python `re`: the greedy name group tries the
longest run of name characters first and shrinks on failure; returns
the `(name, relop, version)` groups. -/
def matchPackagerel (t : Cs) : Option (String × Option String × String) :=
  match t with
  | [] => none
  | c :: r =>
    if isRelFirst c then
      ((List.range ((r.takeWhile isRelName).length + 1)).reverse).findSome? fun n =>
        (relTail (r.drop n)).map fun (op, ver) => (String.mk (c :: r.take n), op, ver)
    else none

/-- The fixed dependency-list vocabulary `relvars` (abbsmeta.py lines
30-31). -/
def relvarsList : List String :=
  ["PKGDEP", "PKGRECOM", "PKGBREAK", "PKGCONFL", "PKGREP",
   "PKGPROV", "PKGSUG", "BUILDDEP", "PKGDEP_DPKG", "PKGDEP_RPM"]

/-- Word character of `re.ASCII` `\w`. -/
def isWordC (c : Char) : Bool := isAlnumU c

/-- `re_relvars.match(k)` (abbsmeta.py line 32): one of the dependency
keys, optionally suffixed by a double underscore and a nonempty word. -/
def reRelvarsMatch (k : String) : Bool :=
  relvarsList.any fun b =>
    k = b ||
      (k.data.take (b.length + 2) = b.data ++ ['_', '_'] &&
        (let rest := k.data.drop (b.length + 2)
         !rest.isEmpty && rest.all isWordC))

/-- `k.rsplit(double-underscore, 1)`: split at the rightmost
occurrence. -/
def rsplitDoubleUs (k : Cs) : Cs × Option Cs :=
  match ((List.range k.length).reverse).find? (fun i => (k.drop i).take 2 = ['_', '_']) with
  | some i => (k.take i, some (k.drop (i + 2)))
  | none => (k, none)

/-- Python `str.lower()` on ASCII data. -/
def pyLower (s : Cs) : Cs := s.map Char.toLower

/-- Python `str.split()` with no separator: split on whitespace runs,
dropping empty pieces. -/
def pySplitWs (s : Cs) : List Cs :=
  go (s.length + 1) s
where
  go : Nat → Cs → List Cs
    | 0, _ => []
    | fuel + 1, s =>
      let s1 := s.dropWhile isPyWs
      if s1.isEmpty then []
      else (s1.takeWhile fun c => !isPyWs c) :: go fuel (s1.dropWhile fun c => !isPyWs c)

/-- A dependency tuple
`(package, dependency, relop, version, architecture, relationship)`
as appended by `load_defines` (abbsmeta.py line 131); the version is
`depver or None`, so an empty version becomes `none`. -/
abbrev DepT := String × String × Option String × Option String × String × String

/-- The `Version` named tuple (abbsmeta.py line 34). -/
structure VersionT : Type where
  version : Option String
  release : Option String
  epoch : Option String
deriving DecidableEq, Repr

/-- The all-`None` default of the `vermask_arch` defaultdict. -/
def versionNone : VersionT := ⟨none, none, none⟩

/-- Read an architecture entry of `vermask_arch`, with the defaultdict
default. -/
def vmGet (m : List (String × VersionT)) (k : String) : VersionT :=
  match m.find? (fun p => p.1 = k) with
  | some p => p.2
  | none => versionNone

/-- `vermask_arch[arch] = vermask_arch[arch]._replace(...)`: update in
place, or append a new entry derived from the default. -/
def vmSet (m : List (String × VersionT)) (k : String) (f : VersionT → VersionT) :
    List (String × VersionT) :=
  if m.any (fun p => p.1 = k) then m.map fun p => if p.1 = k then (k, f p.2) else p
  else m ++ [(k, f versionNone)]

/-- Remove a key from the ordered mapping, returning its value:
`self.spec.pop(key, None)`. -/
def odPop (m : VarMap) (k : String) : Option String × VarMap :=
  (odLookup m k, m.filter fun p => p.1 ≠ k)

/-- `self.spec.update(result)` on an `OrderedDict`: existing keys keep
their position, new keys are appended in order. -/
def odUpdate (m : VarMap) (result : VarMap) : VarMap :=
  result.foldl (fun acc p => odSet acc p.1 p.2) m

/-- In-memory `Package` entity (abbsmeta.py lines 42-64). -/
structure PackageE : Type where
  name : String
  tree : String
  secpath : String
  category : Option String
  sect : String
  directory : String
  pkg_section : Option String
  version : Option String
  release : Option String
  epoch : Option String
  vermask : List (String × VersionT)
  description : Option String
  spec : VarMap
  dependencies : List DepT
  fn_spec : Option String
  fn_defines : Option String
  err_spec : Option String
  err_defines : Option String
deriving DecidableEq, Repr

/-- Python truthiness of an optional string. -/
def strTruthy : Option String → Bool
  | some s => !(s = "")
  | none => false

/-- The reserved-key extraction loop of `load_defines` (abbsmeta.py
lines 103-113), processed over the key snapshot in mapping order. -/
def extractReserved (pkg : PackageE) (spec : VarMap) : PackageE × VarMap :=
  (spec.map (·.1)).foldl
    (fun (st : PackageE × VarMap) key =>
      let (pkg, spec) := st
      if key = "PKGSEC" then
        let (v, spec2) := odPop spec key
        ({ pkg with pkg_section := v }, spec2)
      else if key = "PKGDES" then
        let (v, spec2) := odPop spec key
        ({ pkg with description := v }, spec2)
      else if key = "PKGEPOCH" then
        let (v, spec2) := odPop spec key
        ({ pkg with epoch := v }, spec2)
      else if key.data.take 10 = "PKGEPOCH__".data then
        let arch := String.mk (pyLower (key.data.drop 10))
        let (v, spec2) := odPop spec key
        ({ pkg with vermask := vmSet pkg.vermask arch fun m => { m with epoch := v } }, spec2)
      else st)
    (pkg, spec)

/-- Parse one dependency-list value (abbsmeta.py lines 122-131): split
on whitespace, match each token against `re_packagerel`; a failing
token contributes an error entry instead of aborting, a matching one
contributes a dependency tuple with `depver or None`. -/
def parseRelValue (name rel arch : String) : List Cs → List DepT × List String
  | [] => ([], [])
  | tok :: toks =>
    let rest := parseRelValue name rel arch toks
    match matchPackagerel tok with
    | some (deppkg, relop, depver) =>
      ((name, deppkg, relop,
        (if depver = "" then none else some depver), arch, rel) :: rest.1, rest.2)
    | none =>
      (rest.1, (rel ++ ": invalid dependency definition in " ++ String.mk tok) :: rest.2)

/-- The dependency extraction loop of `load_defines` (abbsmeta.py
lines 114-135): dependency keys are consumed in mapping order; the
architecture scope comes from the `rsplit` on the double underscore. -/
def extractDeps (name : String) (errInit : List String) (spec : VarMap) :
    List DepT × List String × VarMap :=
  let rel := spec.filter fun p => reRelvarsMatch p.1
  let specLeft := spec.filter fun p => !reRelvarsMatch p.1
  let (deps, errs) := rel.foldl
    (fun (st : List DepT × List String) p =>
      let (base, suffix) := rsplitDoubleUs p.1.data
      let relName := String.mk base
      let arch : String :=
        match suffix with
        | none => ""
        | some a => String.mk (pyLower a)
      let (d, e) := parseRelValue name relName arch (pySplitWs p.2.data)
      (st.1 ++ d, st.2 ++ e))
    ([], errInit)
  (deps, errs, specLeft)

/-- `Package.load_defines` (abbsmeta.py lines 94-135) applied to the
already-parsed variable mapping `result` and diagnostic `err` of the
defines file.  A missing (or empty, hence falsy) `PKGNAME` returns
early: the mapping is merged and `PKGNAME` popped, but the name and
all other fields stay as inherited, and no dependency parsing
happens. -/
def load_defines (pkg : PackageE) (filename : Option String) (result : VarMap)
    (err : Option String) : PackageE :=
  let pkg := { pkg with fn_defines := filename, err_defines := err }
  let spec1 := odUpdate pkg.spec result
  let (nameOpt, spec2) := odPop spec1 "PKGNAME"
  match nameOpt with
  | none => { pkg with spec := spec2 }
  | some n =>
    if n = "" then { pkg with spec := spec2 }
    else
      let pkg := { pkg with name := n }
      let (pkg, spec3) := extractReserved pkg spec2
      let errInit : List String :=
        match pkg.err_defines with
        | some e => if e = "" then [] else [e]
        | none => []
      let (deps, relerrs, spec4) := extractDeps n errInit spec3
      { pkg with
          spec := spec4
          dependencies := uniq deps
          err_defines :=
            if relerrs.isEmpty then pkg.err_defines
            else some (String.intercalate "\n" relerrs) }

/-- In-memory `PackageGroup` entity (abbsmeta.py lines 137-153). -/
structure PackageGroupE : Type where
  name : String
  tree : String
  secpath : String
  category : Option String
  sect : String
  directory : String
  version : Option String
  release : Option String
  vermask : List (String × VersionT)
  spec : VarMap
  fn_spec : Option String
  err_spec : Option String
deriving DecidableEq, Repr

/-- `PackageGroup.package` (abbsmeta.py lines 165-174), written with
explicit state passing for the group: the constructed `Package` copies
the shared fields — `spec` and `vermask_arch` via `.copy()`, so
`load_defines` mutates only the copies — and the group travels through
unchanged, which the returned second component records. -/
def group_package (g : PackageGroupE) (filename : Option String)
    (result : VarMap) (err : Option String) : PackageE × PackageGroupE :=
  let cls : PackageE :=
    { name := g.name
      tree := g.tree
      secpath := g.secpath
      category := g.category
      sect := g.sect
      directory := g.directory
      pkg_section := none
      version := g.version
      release := g.release
      epoch := none
      vermask := g.vermask
      description := none
      spec := g.spec
      dependencies := []
      fn_spec := g.fn_spec
      fn_defines := none
      err_spec := g.err_spec
      err_defines := none }
  (load_defines cls filename result err, g)

/-- One defines file as fed to the model: its path and the parsed
variable mapping plus diagnostic produced by `read_bashvar`. -/
structure DefinesFile : Type where
  filename : Option String
  result : VarMap
  err : Option String
deriving DecidableEq, Repr

/-- The defines walk of `read_package_info` (abbsmeta.py lines 412-420
for the local variant, 714-722 for the revision variant): every
defines file found under the group directory is turned into a
`Package` via `PackageGroup.package`, and every one of them is
appended to the results, unconditionally. -/
def read_package_info (g : PackageGroupE) (files : List DefinesFile) : List PackageE :=
  files.map fun d => (group_package g d.filename d.result d.err).1

/-! ## The catalog (abbsmeta.py, LocalRepo) -/

/-- A row of the `packages` table (primary key `name`). -/
structure PkgRow : Type where
  name : String
  tree : String
  category : Option String
  sect : String
  pkg_section : Option String
  directory : String
  description : Option String
deriving DecidableEq, Repr

/-- A row of the `package_duplicate` table. -/
structure DupRow : Type where
  package : String
  tree : String
  category : String
  sect : String
  directory : String
deriving DecidableEq, Repr

/-- A row of the `package_versions` table (primary key
`(package, branch, architecture)`). -/
structure VerRow : Type where
  package : String
  branch : String
  architecture : String
  version : Option String
  release : Option String
  epoch : Option String
  commit_time : Option Int
  committer : Option String
  githash : Option String
deriving DecidableEq, Repr

/-- A row of `package_spec` (primary key `(package, key)`). -/
abbrev SpecRow := String × String × String

/-- The catalog tables touched by `update_package`. -/
structure DBState : Type where
  packages : List PkgRow
  package_duplicate : List DupRow
  package_versions : List VerRow
  package_spec : List SpecRow
  package_dependencies : List DepT
  fts : List (String × Option String)
deriving DecidableEq, Repr

/-- `INSERT OR IGNORE INTO package_duplicate`. -/
def addDup (db : DBState) (d : DupRow) : DBState :=
  if d ∈ db.package_duplicate then db
  else { db with package_duplicate := db.package_duplicate ++ [d] }

/-- `REPLACE INTO packages` (primary key `name`). -/
def replacePkgRow (db : DBState) (r : PkgRow) : DBState :=
  { db with packages := db.packages.filter (fun p => p.name ≠ r.name) ++ [r] }

/-- `REPLACE INTO package_versions` (primary key
`(package, branch, architecture)`). -/
def replaceVerRow (db : DBState) (r : VerRow) : DBState :=
  let keep := db.package_versions.filter fun v =>
    ¬(v.package = r.package ∧ v.branch = r.branch ∧ v.architecture = r.architecture)
  { db with package_versions := keep ++ [r] }

/-- `REPLACE INTO package_spec` (primary key `(package, key)`). -/
def replaceSpecRow (db : DBState) (r : SpecRow) : DBState :=
  { db with package_spec :=
      db.package_spec.filter (fun s => ¬(s.1 = r.1 ∧ s.2.1 = r.2.1)) ++ [r] }

/-- `REPLACE INTO package_dependencies` (primary key
`(package, dependency, architecture, relationship)`). -/
def replaceDepRow (db : DBState) (r : DepT) : DBState :=
  let keep := db.package_dependencies.filter fun d =>
    ¬(d.1 = r.1 ∧ d.2.1 = r.2.1 ∧ d.2.2.2.2.1 = r.2.2.2.2.1 ∧ d.2.2.2.2.2 = r.2.2.2.2.2)
  { db with package_dependencies := keep ++ [r] }

/-- Python `x or y` on optional strings (empty and `None` are falsy),
as used for the per-architecture version fallbacks (abbsmeta.py lines
390-391). -/
def pyOr (a b : Option String) : Option String :=
  match a with
  | some s => if s = "" then b else some s
  | none => b

/-- The write phase of `update_package` (abbsmeta.py lines 362-402):
replace the package row, upsert the full-text row, write a version row
per branch and per architecture override, and on the main branch
replace the spec and dependency rows wholesale. -/
def updatePackageWrite (selfName mainbranch : String) (branches : List String)
    (pkg : PackageE) (db : DBState) : DBState :=
  let db := replacePkgRow db
    { name := pkg.name, tree := selfName, category := pkg.category,
      sect := pkg.sect, pkg_section := pkg.pkg_section,
      directory := pkg.directory, description := pkg.description }
  let db :=
    match db.fts.find? (fun p => p.1 = pkg.name) with
    | none => { db with fts := db.fts ++ [(pkg.name, pkg.description)] }
    | some p =>
      if p.2 ≠ pkg.description then
        { db with fts := db.fts.map fun q =>
            if q.1 = pkg.name then (pkg.name, pkg.description) else q }
      else db
  branches.foldl
    (fun db branch =>
      let db := replaceVerRow db
        { package := pkg.name, branch := branch, architecture := "",
          version := pkg.version, release := pkg.release, epoch := pkg.epoch,
          commit_time := none, committer := none, githash := none }
      let db := pkg.vermask.foldl
        (fun db am =>
          replaceVerRow db
            { package := pkg.name, branch := branch, architecture := am.1,
              version := pyOr am.2.version pkg.version,
              release := pyOr am.2.release pkg.release,
              epoch := pyOr am.2.epoch pkg.epoch,
              commit_time := none, committer := none, githash := none })
        db
      if branch = mainbranch then
        let db := { db with package_spec :=
          db.package_spec.filter fun s => s.1 ≠ pkg.name }
        let db := pkg.spec.foldl
          (fun db kv => replaceSpecRow db (pkg.name, kv.1, kv.2)) db
        let db := { db with package_dependencies :=
          db.package_dependencies.filter fun d => d.1 ≠ pkg.name }
        pkg.dependencies.foldl (fun db d => replaceDepRow db d) db
      else db)
    db

/-- `LocalRepo.update_package` (abbsmeta.py lines 323-403).  The
existing catalog entry with the same name is looked up first; a hit in
a different tree records both locations in the duplicate table and
returns without touching anything else ("trees with lower priority
will not override"); a hit in the same tree at a different location
records both locations and then overwrites; otherwise the write phase
runs directly. -/
def update_package (selfName mainbranch : String) (branches : List String)
    (pkg : PackageE) (db : DBState) : DBState :=
  match db.packages.find? (fun r => r.name = pkg.name) with
  | none => updatePackageWrite selfName mainbranch branches pkg db
  | some e =>
    if e.tree ≠ selfName then
      let db := addDup db
        ⟨pkg.name, selfName, (pkg.category.getD ""), pkg.sect, pkg.directory⟩
      addDup db ⟨pkg.name, e.tree, (e.category.getD ""), e.sect, e.directory⟩
    else if (pkg.category, pkg.sect, pkg.directory) ≠
        (e.category, e.sect, e.directory) then
      let db := addDup db
        ⟨pkg.name, selfName, (pkg.category.getD ""), pkg.sect, pkg.directory⟩
      let db := addDup db ⟨pkg.name, e.tree, (e.category.getD ""), e.sect, e.directory⟩
      updatePackageWrite selfName mainbranch branches pkg db
    else updatePackageWrite selfName mainbranch branches pkg db

/-! ## Change selection in the tree scans -/

/-- A row of the temporary table `t_lastdirs` built by
`LocalRepo.scan_abbs_tree` (abbsmeta.py lines 446-456): one previously
recorded package with its location path and stored commit time. -/
structure LastDirRow : Type where
  fullpath : String
  name : String
  category : String
  sect : String
  directory : String
  mtime : Option Int
deriving DecidableEq, Repr

/-- The `t_pkgrm` selection (abbsmeta.py lines 458-464): previously
recorded packages whose location vanished from disk, has no stored
time, or is strictly newer on disk.  `localdirs` is `t_localdirs`
(primary key `fullpath`). -/
def pkgrmOf (lastdirs : List LastDirRow) (localdirs : List (String × Int)) :
    List LastDirRow :=
  lastdirs.filter fun a =>
    match localdirs.find? (fun b => b.1 = a.fullpath) with
    | none => true
    | some b =>
      match a.mtime with
      | none => true
      | some m => decide (m < b.2)

/-- The re-read selection (abbsmeta.py lines 488-493): on-disk
locations that are new, have a stored row without a time, or are
strictly newer than some stored row.  The query yields one row per
join pair; a location is re-read when it is selected at least once. -/
def rescanSelected (localdirs : List (String × Int)) (lastdirs : List LastDirRow)
    (p : String) : Bool :=
  match localdirs.find? (fun b => b.1 = p) with
  | none => false
  | some b =>
    let ms := lastdirs.filter fun a => a.fullpath = p
    ms.isEmpty ||
      ms.any fun a =>
        match a.mtime with
        | none => true
        | some m => decide (m < b.2)

/-- State of the incremental scanner: the catalog plus the
`package_rel` progress table of the marks database (primary key
`(rid, package)`). -/
structure SrcState : Type where
  db : DBState
  package_rel : List (Int × String)
deriving DecidableEq, Repr

/-- The progress-marker guard of `SourceRepo.scan_abbs_tree`
(abbsmeta.py lines 728-733): the revision counts as processed when
`package_rel` holds any row with its `rid` (the join against `marks`
merely requires the revision to be known to the sync layer). -/
def ridRecorded (st : SrcState) (mid : Int) : Bool :=
  st.package_rel.any fun r => r.1 = mid

/-- `SourceRepo.scan_abbs_tree` (abbsmeta.py lines 725-825) as a state
step: the body — everything after the guard — is an arbitrary state
transformer `body`; the guard returns the state untouched whenever the
revision is already recorded. -/
def scan_abbs_tree_src (body : SrcState → Int → SrcState) (st : SrcState) (mid : Int) :
    SrcState :=
  if ridRecorded st mid then st else body st mid

/-! ## Reference definitions written from the specification text

These two definitions deliberately follow the words of the
specification (bash semantics), not the source; they exist to be
compared against the source-derived definitions above. -/

/-- Reference definition following the specification: bash substring
extraction rules for `parameter:offset` and `parameter:offset:length`
(spec section 4.1 "negative offset (suffix-relative) and negative
length (end-relative) semantics identical to bash").  In bash a
negative offset counts from the end; an offset outside the string
yields the empty string; a nonnegative length takes at most that many
characters; a negative length drops that many characters from the end
and raises an expansion error (here `none`) when that end lies before
the offset. -/
def bashSubstr (v : Cs) (off : Int) (len : Option Int) : Option Cs :=
  let n : Int := v.length
  let start := if off < 0 then n + off else off
  if start < 0 ∨ n < start then some []
  else
    match len with
    | none => some (v.drop start.toNat)
    | some l =>
      if 0 ≤ l then some ((v.drop start.toNat).take l.toNat)
      else
        let stop := n + l
        if stop < start then none
        else some ((v.drop start.toNat).take (stop - start).toNat)

/-- Length of the shortest prefix of `s` that the compiled pattern
matches completely, if any: the first length in ascending order. -/
def shortestPreLen (rx : List RTok) (s : Cs) : Option Nat :=
  (List.range (s.length + 1)).find? fun n => fm rx (s.take n)

/-- Length of the longest matching prefix, if any. -/
def longestPreLen (rx : List RTok) (s : Cs) : Option Nat :=
  (List.range (s.length + 1)).reverse.find? fun n => fm rx (s.take n)

/-- Start position of the longest matching suffix (the least start),
if any. -/
def longestSufStart (rx : List RTok) (s : Cs) : Option Nat :=
  (List.range (s.length + 1)).find? fun i => fm rx (s.drop i)

/-- Start position of the shortest matching suffix (the greatest
start), if any. -/
def shortestSufStart (rx : List RTok) (s : Cs) : Option Nat :=
  (List.range (s.length + 1)).reverse.find? fun i => fm rx (s.drop i)

/-- Reference definition following the claim text: remove the shortest
prefix matching the pattern (matching meaning a complete match of the
translated regular expression); keep the value when nothing matches. -/
def removeShortestPre (pat : Cs) (v : Cs) : Cs :=
  match shortestPreLen (translatePat pat) v with
  | some n => v.drop n
  | none => v

/-- Reference definition following the claim text: remove the longest
matching prefix. -/
def removeLongestPre (pat : Cs) (v : Cs) : Cs :=
  match longestPreLen (translatePat pat) v with
  | some n => v.drop n
  | none => v

/-- Reference definition following the claim text: remove the longest
matching suffix (keep the prefix up to its least possible start). -/
def removeLongestSuf (pat : Cs) (v : Cs) : Cs :=
  match longestSufStart (translatePat pat) v with
  | some i => v.take i
  | none => v

/-- Reference definition following the claim text: remove the shortest
matching suffix. -/
def removeShortestSuf (pat : Cs) (v : Cs) : Cs :=
  match shortestSufStart (translatePat pat) v with
  | some i => v.take i
  | none => v

/-! ## Concrete inputs used by the claim instances -/

/-- A value holding a literal backslash-n two-character sequence. -/
def valC1 : Cs := ['x', bsC, 'n', 'y']

/-- The fragment assigning that value inside single quotes. -/
def fragC1 : Cs := ['a', '='] ++ [sqC] ++ valC1 ++ [sqC]

/-- Observable behaviour of bash on `fragC1`: the assignment stores the
four characters verbatim, and the echoed transport line is their
newline encoding (the bash builtin echo prints backslashes as they
are, and the value has no newline, so the line is the value itself);
stderr is empty. -/
def bashOracleC1 : Cs → BashOut := fun _ => ⟨[extEncodeNl valC1], none⟩

/-- A trivial oracle for fragments whose literal evaluation succeeds:
the fallback is never consulted. -/
def oracleNop : Cs → BashOut := fun _ => ⟨[], none⟩

/-- A package group as built from a spec file. -/
def groupW : PackageGroupE :=
  { name := "grp", tree := "treeA", secpath := "extra-utils", category := some "extra",
    sect := "utils", directory := "grp", version := some "1.0", release := some "0",
    vermask := [], spec := [("VER", "1.0")], fn_spec := some "spec", err_spec := none }

/-- A defines file that does not assign `PKGNAME`. -/
def definesNoName : DefinesFile :=
  { filename := some "autobuild/defines", result := [("PKGSEC", "utils")], err := none }

/-- A bare inherited package entity, as `PackageGroup.package` builds
it before `load_defines` runs. -/
def basePkgW : PackageE :=
  { name := "grp", tree := "treeA", secpath := "extra-utils", category := some "extra",
    sect := "utils", directory := "grp", pkg_section := none, version := some "1.0",
    release := some "0", epoch := none, vermask := [], description := none,
    spec := [], dependencies := [], fn_spec := none, fn_defines := none,
    err_spec := none, err_defines := none }

/-- A package offered to the catalog from tree `treeB`. -/
def pkgW : PackageE :=
  { name := "pkgA", tree := "treeB", secpath := "extra-utils", category := some "extra",
    sect := "utils", directory := "pkga-dir", pkg_section := none, version := some "1.0",
    release := some "1", epoch := none, vermask := [], description := some "demo",
    spec := [("SRCS", "x")], dependencies := [("pkgA", "dep1", none, none, "", "PKGDEP")],
    fn_spec := none, fn_defines := none, err_spec := none, err_defines := none }

/-- The catalog row already recorded for the same name by tree `treeX`. -/
def eRowW : PkgRow :=
  { name := "pkgA", tree := "treeX", category := none, sect := "utils",
    pkg_section := none, directory := "dirA", description := none }

/-- A catalog already holding `eRowW` and its dependent rows. -/
def dbW : DBState :=
  { packages := [eRowW], package_duplicate := [],
    package_versions := [⟨"pkgA", "stable", "", some "0.9", some "1", none, none, none, none⟩],
    package_spec := [("pkgA", "K", "V")],
    package_dependencies := [("pkgA", "d", none, none, "", "PKGDEP")],
    fts := [("pkgA", some "old")] }

/-- One previously recorded package-group location with stored commit
time 100. -/
def lastdirsW : List LastDirRow :=
  [⟨"extra-utils/foo", "foo", "extra", "utils", "foo", some 100⟩]

/-- The same location on disk, also with modification time 100. -/
def localdirsW : List (String × Int) := [("extra-utils/foo", 100)]

/-- A scanner state whose progress table already records revision 7. -/
def srcStW : SrcState :=
  { db := { packages := [], package_duplicate := [], package_versions := [],
            package_spec := [], package_dependencies := [], fts := [] },
    package_rel := [(7, "foo")] }

example : opTrimStart false ['0', '1', '2'] ("01234".data) = "34".data := by decide
example : opTrimStart true ['a', '*', 'c'] ("abcbc12123".data) = "12123".data := by decide
example : opTrimStart false ['a', '*', 'c'] ("abcbc12123".data) = "bc12123".data := by decide
example : opTrimEnd false ['1', '*', '3'] ("abcbc12123".data) = "abcbc12".data := by decide
example : opTrimEnd true ['1', '*', '3'] ("abcbc12123".data) = "abcbc".data := by decide
example : opSubstFirst (translatePat ['b', '?']) ['z'] ("abcbc12123".data)
    = "azbc12123".data := by decide
example : opSubstAll (translatePat ['b', '?']) ['z'] ("abcbc12123".data)
    = "azz12123".data := by decide
example : opSubstFirst (translatePat ['b', '*', '1']) ['z'] ("abcbc12123".data)
    = "az23".data := by decide

-- Sanity anchors reproducing expectations from the repository test suite.
example : eval_bashvar_literal [] = some [] := by decide

example : eval_bashvar_literal [nlC] = some [] := by decide

example :
    eval_bashvar_literal ("string=01234567890abcdefgh\ns1=".data ++ braceExp "string:7"
      ++ [nlC] ++ "s3=".data ++ braceExp "string:7:2" ++ [nlC])
    = some [("string", "01234567890abcdefgh"), ("s1", "7890abcdefgh"), ("s3", "78")] := by
  decide

example :
    eval_bashvar_literal ("string=01234567890abcdefgh\ns4=".data ++ braceExp "string:7:-2"
      ++ [nlC] ++ "s5=".data ++ braceExp "string: -7" ++ [nlC]
      ++ "s7=".data ++ braceExp "string: -7:2" ++ [nlC]
      ++ "s8=".data ++ braceExp "string: -7:-2" ++ [nlC])
    = some [("string", "01234567890abcdefgh"), ("s4", "7890abcdef"), ("s5", "bcdefgh"),
        ("s7", "bc"), ("s8", "bcdef")] := by
  decide

example :
    eval_bashvar_literal ("string=abcd/efg/eijk\ns9=".data ++ braceExp "string/"
      ++ [nlC] ++ "s12=".data ++ braceExp "string/e" ++ [nlC]
      ++ "s13=".data ++ braceExp "string/e/z" ++ [nlC]
      ++ "s14=".data ++ braceExp "string//e/z" ++ [nlC])
    = some [("string", "abcd/efg/eijk"), ("s9", "abcd/efg/eijk"), ("s12", "abcd/fg/eijk"),
        ("s13", "abcd/zfg/eijk"), ("s14", "abcd/zfg/zijk")] := by
  decide

example :
    eval_bashvar_literal ("str0=01234567890abcdefgh\ns22=".data ++ braceExp "str0#012"
      ++ [nlC] ++ "s24=".data ++ braceExp "str0#abc" ++ [nlC]
      ++ "s25=".data ++ braceExp "str0%fgh" ++ [nlC]
      ++ "s26=".data ++ braceExp "str0%%fgh" ++ [nlC])
    = some [("str0", "01234567890abcdefgh"), ("s22", "34567890abcdefgh"),
        ("s24", "01234567890abcdefgh"), ("s25", "01234567890abcde"),
        ("s26", "01234567890abcde")] := by
  decide

example :
    evalBashvarLiteralW ("  b=".data ++ braceExp "a:2:4" ++ "\n  a=2\n  c=b$a\n".data)
    = some ([("b", ""), ("a", "2"), ("c", "b2")], [Warn.undefVar "a"]) := by
  decide

-- Grammar rejections asserted by the repository test suite.
example : eval_bashvar_literal "a+=1".data = none := by decide
example : eval_bashvar_literal "a=1 b=2".data = none := by decide
example : eval_bashvar_literal "a=b*.txt".data = none := by decide
example : eval_bashvar_literal "  true".data = none := by decide
example : eval_bashvar_literal ("a=".data ++ braceExp "parameter:-word") = none := by decide
example : eval_bashvar_literal ("a=".data ++ braceExp "string///") = none := by decide
example : eval_bashvar_literal ("a=".data ++ braceExp "string/e/z/") = none := by decide

-- Quoting, comments, concatenation.
example :
    eval_bashvar_literal ("PKGNAME=elixir # sfdsfsdf\nPKGSEC=devel\na=45$PKGSEC\n".data
      ++ "b=".data ++ [dqC, dqC, nlC] ++ "d=\n".data)
    = some [("PKGNAME", "elixir"), ("PKGSEC", "devel"), ("a", "45devel"), ("b", ""),
        ("d", "")] := by
  decide

example :
    eval_bashvar_literal ("VER=4.89\nSRCTBL=".data
      ++ [dqC] ++ "http://exim".data ++ braceExp "VER:0:1" ++ "/exim-$VER.tar.gz".data
      ++ [dqC, nlC])
    = some [("VER", "4.89"), ("SRCTBL", "http://exim4/exim-4.89.tar.gz")] := by
  decide

-- Single quotes are byte-faithful; a backslash-newline inside double
-- quotes is a line continuation.
example :
    eval_bashvar_literal ("e=".data ++ [sqC, 'a', bsC, nlC, 'b', sqC, nlC]
      ++ "g=".data ++ [dqC, 'x', bsC, nlC, 'y', dqC, nlC])
    = some [("e", String.mk ['a', bsC, nlC, 'b']), ("g", "xy")] := by
  decide

-- Sanity anchors for the dependency-token matcher, checked against
-- the behaviour of the Python regular expression.
example : matchPackagerel "foo>=1.0".data = some ("foo", some ">=", "1.0") := by decide
example : matchPackagerel "bar".data = some ("bar", none, "") := by decide
example : matchPackagerel "foo-1.0".data = some ("foo-1.0", none, "") := by decide
example : matchPackagerel "a<=".data = some ("a", some "<=", "") := by decide
example : matchPackagerel "a<b".data = none := by decide
example : matchPackagerel "Foo".data = none := by decide
example : matchPackagerel "a==1".data = some ("a", some "==", "1") := by decide
example : matchPackagerel "fooBAR".data = some ("foo", none, "BAR") := by decide
example : matchPackagerel "a=b".data = none := by decide
example : matchPackagerel "x>1".data = none := by decide
example : matchPackagerel "a+.b-c>=1:2~3".data = some ("a+.b-c", some ">=", "1:2~3") := by
  decide
example : matchPackagerel "gst-plugins-bad-1-0".data
    = some ("gst-plugins-bad-1-0", none, "") := by decide
example : matchPackagerel [] = none := by decide

example : reRelvarsMatch "PKGDEP" = true := by decide
example : reRelvarsMatch "PKGDEP__AMD64" = true := by decide
example : reRelvarsMatch "PKGDEP_DPKG" = true := by decide
example : reRelvarsMatch "PKGDEPX" = false := by decide
example : reRelvarsMatch "PKGDEP__" = false := by decide
example : reRelvarsMatch "PKGDES" = false := by decide

/-! ## Properties of the regex machinery

The goal of this section is the characterisation of the backtracking
matcher: with lazy stars `mEnd` returns the length of the shortest
prefix that the pattern matches completely, with greedy stars the
longest.  This is what makes the shortest/longest trim operators of
`combine_value` correct. -/

theorem nlRun_nil : nlRun [] = 0 := rfl

theorem nlRun_cons_nl (s : Cs) : nlRun (nlC :: s) = 0 := by
  simp [nlRun, List.takeWhile_cons]

theorem nlRun_cons {x : Char} (s : Cs) (h : x ≠ nlC) : nlRun (x :: s) = nlRun s + 1 := by
  simp [nlRun, List.takeWhile_cons, h]

theorem nlRun_le (s : Cs) : nlRun s ≤ s.length := by
  induction s with
  | nil => simp [nlRun]
  | cons x s ih =>
    by_cases h : x = nlC
    · subst h; simp [nlRun_cons_nl]
    · simp [nlRun_cons s h]; omega

theorem nlRun_pos_ne {x : Char} {s : Cs} {k : Nat} (h : k + 1 ≤ nlRun (x :: s)) :
    x ≠ nlC := by
  intro hx; subst hx; rw [nlRun_cons_nl] at h; omega

theorem nlRun_take (m : Nat) (s : Cs) : nlRun (s.take m) = min m (nlRun s) := by
  induction s generalizing m with
  | nil => simp [nlRun]
  | cons x s ih =>
    cases m with
    | zero => simp [nlRun]
    | succ m =>
      by_cases h : x = nlC
      · subst h; simp [List.take_succ_cons, nlRun_cons_nl]
      · simp [List.take_succ_cons, nlRun_cons _ h, ih m, Nat.succ_min_succ]

theorem nlRun_drop {d : Nat} {s : Cs} (h : d ≤ nlRun s) :
    nlRun s - d ≤ nlRun (s.drop d) := by
  induction d generalizing s with
  | zero => simp
  | succ d ih =>
    cases s with
    | nil => rw [nlRun_nil] at h; omega
    | cons x s =>
      have hx : x ≠ nlC := nlRun_pos_ne h
      rw [nlRun_cons _ hx] at h ⊢
      rw [List.drop_succ_cons]
      have := ih (s := s) (by omega)
      omega

theorem fmStar_elim {next : Cs → Bool} :
    ∀ {t : Cs}, fmStar next t = true → ∃ k, k ≤ nlRun t ∧ next (t.drop k) = true := by
  intro t
  induction t with
  | nil => intro h; exact ⟨0, Nat.le_refl _, h⟩
  | cons x t ih =>
    intro h
    rw [fmStar, Bool.or_eq_true] at h
    rcases h with h | h
    · exact ⟨0, Nat.zero_le _, h⟩
    · rw [Bool.and_eq_true, decide_eq_true_eq] at h
      obtain ⟨k, hk, hn⟩ := ih h.2
      refine ⟨k + 1, ?_, ?_⟩
      · rw [nlRun_cons t h.1]; omega
      · simpa using hn

theorem fmStar_of {next : Cs → Bool} :
    ∀ {t : Cs} {k : Nat}, k ≤ nlRun t → next (t.drop k) = true → fmStar next t = true := by
  intro t
  induction t with
  | nil =>
    intro k hk h
    rw [nlRun_nil, Nat.le_zero] at hk
    subst hk
    exact h
  | cons x t ih =>
    intro k hk h
    cases k with
    | zero => rw [fmStar, Bool.or_eq_true]; exact Or.inl h
    | succ k =>
      have hx : x ≠ nlC := nlRun_pos_ne hk
      rw [nlRun_cons t hx] at hk
      rw [fmStar, Bool.or_eq_true]
      refine Or.inr ?_
      rw [Bool.and_eq_true, decide_eq_true_eq]
      have hk2 : k ≤ nlRun t := by omega
      exact ⟨hx, ih hk2 (by simpa using h)⟩

theorem mEndStar_nil (gr : Bool) (next : Cs → Option Nat) :
    mEndStar gr next [] = next [] := by
  cases gr <;> rfl

theorem mEndStar_none {gr : Bool} {next : Cs → Option Nat} :
    ∀ {s : Cs}, mEndStar gr next s = none →
      ∀ k, k ≤ nlRun s → next (s.drop k) = none := by
  intro s
  induction s with
  | nil =>
    intro h k hk
    rw [nlRun_nil, Nat.le_zero] at hk
    subst hk
    rw [mEndStar_nil] at h
    exact h
  | cons x s ih =>
    intro h k hk
    cases gr with
    | false =>
      rw [mEndStar] at h
      cases hn : next (x :: s) with
      | some v => rw [hn] at h; exact absurd h (by simp)
      | none =>
        rw [hn] at h
        cases k with
        | zero => exact hn
        | succ k =>
          have hx : x ≠ nlC := nlRun_pos_ne hk
          rw [nlRun_cons s hx] at hk
          rw [if_neg hx, Option.map_eq_none'] at h
          simpa using ih h k (by omega)
    | true =>
      rw [mEndStar] at h
      cases hin : (if x = nlC then none else (mEndStar true next s).map (· + 1)) with
      | some v => rw [hin] at h; exact absurd h (by simp)
      | none =>
        rw [hin] at h
        cases k with
        | zero => exact h
        | succ k =>
          have hx : x ≠ nlC := nlRun_pos_ne hk
          rw [nlRun_cons s hx] at hk
          rw [if_neg hx, Option.map_eq_none'] at hin
          simpa using ih hin k (by omega)

theorem mEndStar_some {gr : Bool} {next : Cs → Option Nat} :
    ∀ {s : Cs} {v : Nat}, mEndStar gr next s = some v →
      ∃ k e, k ≤ nlRun s ∧ next (s.drop k) = some e ∧ v = k + e := by
  intro s
  induction s with
  | nil =>
    intro v h
    rw [mEndStar_nil] at h
    exact ⟨0, v, Nat.le_refl _, h, by omega⟩
  | cons x s ih =>
    intro v h
    cases gr with
    | false =>
      rw [mEndStar] at h
      cases hn : next (x :: s) with
      | some w =>
        rw [hn] at h
        simp only [Option.some.injEq] at h
        subst h
        exact ⟨0, w, Nat.zero_le _, hn, by omega⟩
      | none =>
        rw [hn] at h
        by_cases hx : x = nlC
        · rw [if_pos hx] at h; exact absurd h (by simp)
        · rw [if_neg hx] at h
          cases hm : mEndStar false next s with
          | none => rw [hm] at h; exact absurd h (by simp)
          | some w =>
            rw [hm] at h
            simp only [Option.map_some', Option.some.injEq] at h
            obtain ⟨k, e, hk, hne, hv⟩ := ih hm
            refine ⟨k + 1, e, ?_, by simpa using hne, by omega⟩
            rw [nlRun_cons s hx]; omega
    | true =>
      rw [mEndStar] at h
      cases hin : (if x = nlC then none else (mEndStar true next s).map (· + 1)) with
      | some w =>
        rw [hin] at h
        simp only [Option.some.injEq] at h
        subst h
        by_cases hx : x = nlC
        · rw [if_pos hx] at hin; exact absurd hin (by simp)
        · rw [if_neg hx] at hin
          cases hm : mEndStar true next s with
          | none => rw [hm] at hin; exact absurd hin (by simp)
          | some u =>
            rw [hm] at hin
            simp only [Option.map_some', Option.some.injEq] at hin
            obtain ⟨k, e, hk, hne, hv⟩ := ih hm
            refine ⟨k + 1, e, ?_, by simpa using hne, by omega⟩
            rw [nlRun_cons s hx]; omega
      | none =>
        rw [hin] at h
        exact ⟨0, v, Nat.zero_le _, h, by omega⟩

theorem mEndStar_lazy_first {next : Cs → Option Nat} :
    ∀ {s : Cs} {v : Nat}, mEndStar false next s = some v →
      ∃ k e, k ≤ nlRun s ∧ next (s.drop k) = some e ∧ v = k + e ∧
        ∀ k', k' < k → next (s.drop k') = none := by
  intro s
  induction s with
  | nil =>
    intro v h
    rw [mEndStar_nil] at h
    exact ⟨0, v, Nat.le_refl _, h, by omega, by omega⟩
  | cons x s ih =>
    intro v h
    rw [mEndStar] at h
    cases hn : next (x :: s) with
    | some w =>
      rw [hn] at h
      simp only [Option.some.injEq] at h
      subst h
      exact ⟨0, w, Nat.zero_le _, hn, by omega, by omega⟩
    | none =>
      rw [hn] at h
      by_cases hx : x = nlC
      · rw [if_pos hx] at h; exact absurd h (by simp)
      · rw [if_neg hx] at h
        cases hm : mEndStar false next s with
        | none => rw [hm] at h; exact absurd h (by simp)
        | some w =>
          rw [hm] at h
          simp only [Option.map_some', Option.some.injEq] at h
          obtain ⟨k, e, hk, hne, hv, hfst⟩ := ih hm
          refine ⟨k + 1, e, ?_, by simpa using hne, by omega, ?_⟩
          · rw [nlRun_cons s hx]; omega
          · intro k' hk'
            cases k' with
            | zero => exact hn
            | succ k' => simpa using hfst k' (by omega)

theorem mEndStar_greedy_last {next : Cs → Option Nat} :
    ∀ {s : Cs} {v : Nat}, mEndStar true next s = some v →
      ∃ k e, k ≤ nlRun s ∧ next (s.drop k) = some e ∧ v = k + e ∧
        ∀ k', k < k' → k' ≤ nlRun s → next (s.drop k') = none := by
  intro s
  induction s with
  | nil =>
    intro v h
    rw [mEndStar_nil] at h
    refine ⟨0, v, Nat.le_refl _, h, by omega, ?_⟩
    intro k' h1 h2
    rw [nlRun_nil] at h2
    omega
  | cons x s ih =>
    intro v h
    rw [mEndStar] at h
    cases hin : (if x = nlC then none else (mEndStar true next s).map (· + 1)) with
    | some w =>
      rw [hin] at h
      simp only [Option.some.injEq] at h
      subst h
      by_cases hx : x = nlC
      · rw [if_pos hx] at hin; exact absurd hin (by simp)
      · rw [if_neg hx] at hin
        cases hm : mEndStar true next s with
        | none => rw [hm] at hin; exact absurd hin (by simp)
        | some u =>
          rw [hm] at hin
          simp only [Option.map_some', Option.some.injEq] at hin
          obtain ⟨k, e, hk, hne, hv, hlast⟩ := ih hm
          refine ⟨k + 1, e, ?_, by simpa using hne, by omega, ?_⟩
          · rw [nlRun_cons s hx]; omega
          · intro k' h1 h2
            cases k' with
            | zero => omega
            | succ k' =>
              rw [nlRun_cons s hx] at h2
              simpa using hlast k' (by omega) (by omega)
    | none =>
      rw [hin] at h
      refine ⟨0, v, Nat.zero_le _, h, by omega, ?_⟩
      intro k' h1 h2
      cases k' with
      | zero => omega
      | succ k' =>
        have hx : x ≠ nlC := nlRun_pos_ne h2
        rw [nlRun_cons s hx] at h2
        rw [if_neg hx, Option.map_eq_none'] at hin
        simpa using mEndStar_none hin k' (by omega)

theorem mEnd_lit_inv {gr : Bool} {c : Char} {p : List RTok} {s : Cs} {m : Nat}
    (h : mEnd gr (RTok.lit c :: p) s = some m) :
    ∃ x s' w, s = x :: s' ∧ x = c ∧ mEnd gr p s' = some w ∧ m = w + 1 := by
  cases s with
  | nil => rw [mEnd] at h; exact absurd h (by simp)
  | cons x s' =>
    rw [mEnd] at h
    by_cases hx : x = c
    · rw [if_pos hx] at h
      cases hm : mEnd gr p s' with
      | none => rw [hm] at h; exact absurd h (by simp)
      | some w =>
        rw [hm] at h
        simp only [Option.map_some', Option.some.injEq] at h
        exact ⟨x, s', w, rfl, hx, hm, h.symm⟩
    · rw [if_neg hx] at h; exact absurd h (by simp)

theorem mEnd_dot_inv {gr : Bool} {p : List RTok} {s : Cs} {m : Nat}
    (h : mEnd gr (RTok.dot :: p) s = some m) :
    ∃ x s' w, s = x :: s' ∧ x ≠ nlC ∧ mEnd gr p s' = some w ∧ m = w + 1 := by
  cases s with
  | nil => rw [mEnd] at h; exact absurd h (by simp)
  | cons x s' =>
    rw [mEnd] at h
    by_cases hx : x = nlC
    · rw [if_pos hx] at h; exact absurd h (by simp)
    · rw [if_neg hx] at h
      cases hm : mEnd gr p s' with
      | none => rw [hm] at h; exact absurd h (by simp)
      | some w =>
        rw [hm] at h
        simp only [Option.map_some', Option.some.injEq] at h
        exact ⟨x, s', w, rfl, hx, hm, h.symm⟩

/-- Soundness of the matcher: a reported end is a prefix length that
the pattern matches completely. -/
theorem mEnd_sound {gr : Bool} : ∀ (p : List RTok) (s : Cs) (e : Nat),
    mEnd gr p s = some e → e ≤ s.length ∧ fm p (s.take e) = true := by
  intro p
  induction p with
  | nil =>
    intro s e h
    rw [mEnd] at h
    simp only [Option.some.injEq] at h
    subst h
    exact ⟨Nat.zero_le _, by simp [fm]⟩
  | cons t p ih =>
    cases t with
    | lit c =>
      intro s e h
      obtain ⟨x, s', w, rfl, hx, hm, rfl⟩ := mEnd_lit_inv h
      obtain ⟨h1, h2⟩ := ih s' w hm
      refine ⟨by simp; omega, ?_⟩
      rw [List.take_succ_cons, fm, Bool.and_eq_true, decide_eq_true_eq]
      exact ⟨hx, h2⟩
    | dot =>
      intro s e h
      obtain ⟨x, s', w, rfl, hx, hm, rfl⟩ := mEnd_dot_inv h
      obtain ⟨h1, h2⟩ := ih s' w hm
      refine ⟨by simp; omega, ?_⟩
      rw [List.take_succ_cons, fm, Bool.and_eq_true, decide_eq_true_eq]
      exact ⟨hx, h2⟩
    | star =>
      intro s e h
      rw [mEnd] at h
      obtain ⟨k, e', hk, hne, hv⟩ := mEndStar_some h
      obtain ⟨h1, h2⟩ := ih (s.drop k) e' hne
      subst hv
      have hks : k ≤ s.length := le_trans hk (nlRun_le s)
      constructor
      · rw [List.length_drop] at h1; omega
      · rw [fm]
        have hk2 : k ≤ nlRun (s.take (k + e')) := by
          rw [nlRun_take]; omega
        apply fmStar_of hk2
        rw [List.drop_take]
        simpa using h2

/-- Monotone shift property: the reported end from an earlier start
position is at most the shift plus the reported end from a later one.
This is the backbone of both the shortest-match and the longest-match
characterisations. -/
theorem mEnd_mono {gr : Bool} : ∀ (p : List RTok) (s : Cs) (d m m' : Nat),
    mEnd gr p s = some m → mEnd gr p (s.drop d) = some m' → m ≤ d + m' := by
  intro p
  induction p with
  | nil =>
    intro s d m m' h1 _
    rw [mEnd] at h1
    simp only [Option.some.injEq] at h1
    omega
  | cons t p ih =>
    cases t with
    | lit c =>
      intro s d m m' h1 h2
      obtain ⟨x, s', w, rfl, hx, hm, rfl⟩ := mEnd_lit_inv h1
      cases d with
      | zero =>
        rw [List.drop_zero] at h2
        obtain ⟨y, t', w', heq, hy, hm', rfl⟩ := mEnd_lit_inv h2
        simp only [List.cons.injEq] at heq
        obtain ⟨rfl, rfl⟩ := heq
        rw [hm] at hm'
        simp only [Option.some.injEq] at hm'
        omega
      | succ d =>
        rw [List.drop_succ_cons] at h2
        obtain ⟨y, t', w', heq, hy, hm', rfl⟩ := mEnd_lit_inv h2
        have ht' : t' = s'.drop (d + 1) := by
          have h3 : (s'.drop d).drop 1 = s'.drop (d + 1) := by
            rw [List.drop_drop]
          rw [heq] at h3
          simpa using h3
        subst ht'
        have := ih s' (d + 1) w w' hm hm'
        omega
    | dot =>
      intro s d m m' h1 h2
      obtain ⟨x, s', w, rfl, hx, hm, rfl⟩ := mEnd_dot_inv h1
      cases d with
      | zero =>
        rw [List.drop_zero] at h2
        obtain ⟨y, t', w', heq, hy, hm', rfl⟩ := mEnd_dot_inv h2
        simp only [List.cons.injEq] at heq
        obtain ⟨rfl, rfl⟩ := heq
        rw [hm] at hm'
        simp only [Option.some.injEq] at hm'
        omega
      | succ d =>
        rw [List.drop_succ_cons] at h2
        obtain ⟨y, t', w', heq, hy, hm', rfl⟩ := mEnd_dot_inv h2
        have ht' : t' = s'.drop (d + 1) := by
          have h3 : (s'.drop d).drop 1 = s'.drop (d + 1) := by
            rw [List.drop_drop]
          rw [heq] at h3
          simpa using h3
        subst ht'
        have := ih s' (d + 1) w w' hm hm'
        omega
    | star =>
      intro s d m m' h1 h2
      rw [mEnd] at h1 h2
      cases gr with
      | false =>
        obtain ⟨k₀, f₀, hk₀, hne₀, hv₀, hfst₀⟩ := mEndStar_lazy_first h1
        obtain ⟨k₁, f₁, hk₁, hne₁, hv₁, _⟩ := mEndStar_lazy_first h2
        rw [List.drop_drop] at hne₁
        have hk0le : k₀ ≤ d + k₁ := by
          by_contra hgt
          push_neg at hgt
          have hnone := hfst₀ (d + k₁) hgt
          rw [hnone] at hne₁
          exact absurd hne₁ (by simp)
        have hmem : mEnd false p ((s.drop k₀).drop (d + k₁ - k₀)) = some f₁ := by
          rw [List.drop_drop]
          have hco : k₀ + (d + k₁ - k₀) = d + k₁ := by omega
          rw [hco]
          exact hne₁
        have := ih (s.drop k₀) (d + k₁ - k₀) f₀ f₁ hne₀ hmem
        omega
      | true =>
        obtain ⟨k₀, f₀, hk₀, hne₀, hv₀, hlast₀⟩ := mEndStar_greedy_last h1
        obtain ⟨k₁, f₁, hk₁, hne₁, hv₁, hlast₁⟩ := mEndStar_greedy_last h2
        rw [List.drop_drop] at hne₁
        have hk0le : k₀ ≤ d + k₁ := by
          by_contra hgt
          push_neg at hgt
          have hd : d ≤ k₀ := by omega
          have hdn : d ≤ nlRun s := le_trans hd hk₀
          have hk' : k₀ - d ≤ nlRun (s.drop d) := by
            have := nlRun_drop hdn
            omega
          have hnone := hlast₁ (k₀ - d) (by omega) hk'
          rw [List.drop_drop] at hnone
          have hco : d + (k₀ - d) = k₀ := by omega
          rw [hco] at hnone
          rw [hnone] at hne₀
          exact absurd hne₀ (by simp)
        have hmem : mEnd true p ((s.drop k₀).drop (d + k₁ - k₀)) = some f₁ := by
          rw [List.drop_drop]
          have hco : k₀ + (d + k₁ - k₀) = d + k₁ := by omega
          rw [hco]
          exact hne₁
        have := ih (s.drop k₀) (d + k₁ - k₀) f₀ f₁ hne₀ hmem
        omega

/-- Completeness with the lazy bound: any complete match of a prefix
yields a reported end that is at most that prefix length. -/
theorem fm_mEnd_lazy_le : ∀ (p : List RTok) (s : Cs) (j : Nat), j ≤ s.length →
    fm p (s.take j) = true → ∃ e, e ≤ j ∧ mEnd false p s = some e := by
  intro p
  induction p with
  | nil =>
    intro s j _ _
    exact ⟨0, Nat.zero_le _, by rw [mEnd]⟩
  | cons t p ih =>
    cases t with
    | lit c =>
      intro s j hj h
      cases s with
      | nil => rw [List.take_nil, fm] at h; exact absurd h (by simp)
      | cons x s =>
        cases j with
        | zero => rw [List.take_zero, fm] at h; exact absurd h (by simp)
        | succ j =>
          rw [List.take_succ_cons, fm, Bool.and_eq_true, decide_eq_true_eq] at h
          obtain ⟨hx, hf⟩ := h
          have hj2 : j ≤ s.length := by simpa using hj
          obtain ⟨e, he, hm⟩ := ih s j hj2 hf
          refine ⟨e + 1, by omega, ?_⟩
          rw [mEnd, if_pos hx, hm]
          rfl
    | dot =>
      intro s j hj h
      cases s with
      | nil => rw [List.take_nil, fm] at h; exact absurd h (by simp)
      | cons x s =>
        cases j with
        | zero => rw [List.take_zero, fm] at h; exact absurd h (by simp)
        | succ j =>
          rw [List.take_succ_cons, fm, Bool.and_eq_true, decide_eq_true_eq] at h
          obtain ⟨hx, hf⟩ := h
          have hj2 : j ≤ s.length := by simpa using hj
          obtain ⟨e, he, hm⟩ := ih s j hj2 hf
          refine ⟨e + 1, by omega, ?_⟩
          rw [mEnd, if_neg hx, hm]
          rfl
    | star =>
      intro s j hj h
      rw [fm] at h
      obtain ⟨k, hk, hn⟩ := fmStar_elim h
      rw [nlRun_take] at hk
      have hks : k ≤ nlRun s := by omega
      have hkj : k ≤ j := by omega
      rw [List.drop_take] at hn
      have hlen : j - k ≤ (s.drop k).length := by rw [List.length_drop]; omega
      obtain ⟨e', he', hm⟩ := ih (s.drop k) (j - k) hlen hn
      have hsome : mEndStar false (mEnd false p) s ≠ none := by
        intro hnone
        have hx := mEndStar_none hnone k hks
        rw [hm] at hx
        exact absurd hx (by simp)
      obtain ⟨v, hv⟩ := Option.ne_none_iff_exists'.mp hsome
      obtain ⟨k₀, f₀, hk₀, hne₀, hveq, hfst⟩ := mEndStar_lazy_first hv
      have hk₀k : k₀ ≤ k := by
        by_contra hlt
        push_neg at hlt
        have hx := hfst k hlt
        rw [hm] at hx
        exact absurd hx (by simp)
      have hmem : mEnd false p ((s.drop k₀).drop (k - k₀)) = some e' := by
        rw [List.drop_drop]
        have hco : k₀ + (k - k₀) = k := by omega
        rw [hco]
        exact hm
      have hmono := mEnd_mono p (s.drop k₀) (k - k₀) f₀ e' hne₀ hmem
      refine ⟨v, by omega, ?_⟩
      rw [mEnd]
      exact hv

/-- Completeness with the greedy bound: any complete match of a prefix
yields a reported end that is at least that prefix length. -/
theorem fm_mEnd_greedy_ge : ∀ (p : List RTok) (s : Cs) (j : Nat), j ≤ s.length →
    fm p (s.take j) = true → ∃ e, j ≤ e ∧ mEnd true p s = some e := by
  intro p
  induction p with
  | nil =>
    intro s j hj h
    rw [fm, List.isEmpty_iff, List.take_eq_nil_iff] at h
    have hj0 : j = 0 := by
      rcases h with h | h
      · exact h
      · subst h; simpa using hj
    subst hj0
    exact ⟨0, Nat.le_refl _, by rw [mEnd]⟩
  | cons t p ih =>
    cases t with
    | lit c =>
      intro s j hj h
      cases s with
      | nil => rw [List.take_nil, fm] at h; exact absurd h (by simp)
      | cons x s =>
        cases j with
        | zero => rw [List.take_zero, fm] at h; exact absurd h (by simp)
        | succ j =>
          rw [List.take_succ_cons, fm, Bool.and_eq_true, decide_eq_true_eq] at h
          obtain ⟨hx, hf⟩ := h
          have hj2 : j ≤ s.length := by simpa using hj
          obtain ⟨e, he, hm⟩ := ih s j hj2 hf
          refine ⟨e + 1, by omega, ?_⟩
          rw [mEnd, if_pos hx, hm]
          rfl
    | dot =>
      intro s j hj h
      cases s with
      | nil => rw [List.take_nil, fm] at h; exact absurd h (by simp)
      | cons x s =>
        cases j with
        | zero => rw [List.take_zero, fm] at h; exact absurd h (by simp)
        | succ j =>
          rw [List.take_succ_cons, fm, Bool.and_eq_true, decide_eq_true_eq] at h
          obtain ⟨hx, hf⟩ := h
          have hj2 : j ≤ s.length := by simpa using hj
          obtain ⟨e, he, hm⟩ := ih s j hj2 hf
          refine ⟨e + 1, by omega, ?_⟩
          rw [mEnd, if_neg hx, hm]
          rfl
    | star =>
      intro s j hj h
      rw [fm] at h
      obtain ⟨k, hk, hn⟩ := fmStar_elim h
      rw [nlRun_take] at hk
      have hks : k ≤ nlRun s := by omega
      have hkj : k ≤ j := by omega
      rw [List.drop_take] at hn
      have hlen : j - k ≤ (s.drop k).length := by rw [List.length_drop]; omega
      obtain ⟨e', he', hm⟩ := ih (s.drop k) (j - k) hlen hn
      have hsome : mEndStar true (mEnd true p) s ≠ none := by
        intro hnone
        have hx := mEndStar_none hnone k hks
        rw [hm] at hx
        exact absurd hx (by simp)
      obtain ⟨v, hv⟩ := Option.ne_none_iff_exists'.mp hsome
      obtain ⟨k₀, f₀, hk₀, hne₀, hveq, hlast⟩ := mEndStar_greedy_last hv
      have hkk₀ : k ≤ k₀ := by
        by_contra hlt
        push_neg at hlt
        have hx := hlast k hlt hks
        rw [hm] at hx
        exact absurd hx (by simp)
      have hmem : mEnd true p ((s.drop k).drop (k₀ - k)) = some f₀ := by
        rw [List.drop_drop]
        have hco : k + (k₀ - k) = k₀ := by omega
        rw [hco]
        exact hne₀
      have hmono := mEnd_mono p (s.drop k) (k₀ - k) e' f₀ hm hmem
      refine ⟨v, by omega, ?_⟩
      rw [mEnd]
      exact hv

/-- Minimality of the lazy matcher. -/
theorem mEnd_lazy_min {p : List RTok} {s : Cs} {e : Nat}
    (h : mEnd false p s = some e) :
    ∀ j, j ≤ s.length → fm p (s.take j) = true → e ≤ j := by
  intro j hj hf
  obtain ⟨e', he', hm⟩ := fm_mEnd_lazy_le p s j hj hf
  rw [h] at hm
  simp only [Option.some.injEq] at hm
  omega

/-- Maximality of the greedy matcher. -/
theorem mEnd_greedy_max {p : List RTok} {s : Cs} {e : Nat}
    (h : mEnd true p s = some e) :
    ∀ j, j ≤ s.length → fm p (s.take j) = true → j ≤ e := by
  intro j hj hf
  obtain ⟨e', he', hm⟩ := fm_mEnd_greedy_ge p s j hj hf
  rw [h] at hm
  simp only [Option.some.injEq] at hm
  omega

/-- Failure of the matcher means no prefix matches at all. -/
theorem mEnd_none_fm {gr : Bool} {p : List RTok} {s : Cs}
    (h : mEnd gr p s = none) :
    ∀ j, j ≤ s.length → fm p (s.take j) = false := by
  intro j hj
  by_contra hf
  rw [Bool.not_eq_false] at hf
  cases gr with
  | false =>
    obtain ⟨e, _, hm⟩ := fm_mEnd_lazy_le p s j hj hf
    rw [h] at hm
    exact absurd hm (by simp)
  | true =>
    obtain ⟨e, _, hm⟩ := fm_mEnd_greedy_ge p s j hj hf
    rw [h] at hm
    exact absurd hm (by simp)

theorem range_find_least {P : Nat → Bool} : ∀ {N n : Nat}, n < N → P n = true →
    (∀ m, m < n → P m = false) → (List.range N).find? P = some n := by
  intro N
  induction N with
  | zero => intro n hn; omega
  | succ N ih =>
    intro n hn hp hmin
    rw [List.range_succ, List.find?_append]
    by_cases hcase : n < N
    · rw [ih hcase hp hmin]
      rfl
    · have hnN : n = N := by omega
      have hnone : (List.range N).find? P = none := by
        rw [List.find?_eq_none]
        intro x hx
        rw [List.mem_range] at hx
        have hPx : P x = false := hmin x (by omega)
        simp [hPx]
      have hpN : P N = true := by rw [← hnN]; exact hp
      rw [hnone, hnN]
      simp [List.find?_cons, hpN]

theorem range_find_none {P : Nat → Bool} {N : Nat}
    (h : ∀ m, m < N → P m = false) : (List.range N).find? P = none := by
  rw [List.find?_eq_none]
  intro x hx
  rw [List.mem_range] at hx
  simp [h x hx]

theorem range_rev_find_greatest {P : Nat → Bool} : ∀ {N n : Nat}, n < N → P n = true →
    (∀ m, n < m → m < N → P m = false) → (List.range N).reverse.find? P = some n := by
  intro N
  induction N with
  | zero => intro n hn; omega
  | succ N ih =>
    intro n hn hp hmax
    rw [List.range_succ, List.reverse_append]
    by_cases hcase : n = N
    · subst hcase
      simp [List.find?_cons, hp]
    · have hlt : n < N := by omega
      have hPN : P N = false := hmax N (by omega) (by omega)
      have hih := ih hlt hp (fun m h1 h2 => hmax m h1 (by omega))
      simp only [List.reverse_singleton, List.singleton_append, List.find?_cons, hPN]
      exact hih

theorem range_rev_find_none {P : Nat → Bool} {N : Nat}
    (h : ∀ m, m < N → P m = false) : (List.range N).reverse.find? P = none := by
  rw [List.find?_eq_none]
  intro x hx
  rw [List.mem_reverse, List.mem_range] at hx
  simp [h x hx]

/-- The lazy matcher computes the shortest completely matching prefix
length. -/
theorem mEnd_lazy_find (p : List RTok) (s : Cs) :
    mEnd false p s = shortestPreLen p s := by
  rw [shortestPreLen]
  cases h : mEnd false p s with
  | some e =>
    obtain ⟨he, hfm⟩ := mEnd_sound p s e h
    have hmin := mEnd_lazy_min h
    rw [range_find_least (by omega) hfm ?hmin]
    case hmin =>
      intro m hm
      by_contra hf
      rw [Bool.not_eq_false] at hf
      have := hmin m (by omega) hf
      omega
  | none =>
    rw [range_find_none]
    intro m hm
    exact mEnd_none_fm h m (by omega)

/-- The greedy matcher computes the longest completely matching prefix
length. -/
theorem mEnd_greedy_find (p : List RTok) (s : Cs) :
    mEnd true p s = longestPreLen p s := by
  rw [longestPreLen]
  cases h : mEnd true p s with
  | some e =>
    obtain ⟨he, hfm⟩ := mEnd_sound p s e h
    have hmax := mEnd_greedy_max h
    rw [range_rev_find_greatest (by omega) hfm ?hmax]
    case hmax =>
      intro m hm1 hm2
      by_contra hf
      rw [Bool.not_eq_false] at hf
      have := hmax m (by omega) hf
      omega
  | none =>
    rw [range_rev_find_none]
    intro m hm
    exact mEnd_none_fm h m (by omega)

theorem filter_head?_eq_find? {α : Type} (p : α → Bool) :
    ∀ (l : List α), (l.filter p).head? = l.find? p := by
  intro l
  induction l with
  | nil => rfl
  | cons x l ih =>
    rw [List.filter_cons, List.find?_cons]
    cases hp : p x
    · simp [ih]
    · simp

theorem filter_getLast?_eq_rev_find? {α : Type} (p : α → Bool) (l : List α) :
    (l.filter p).getLast? = l.reverse.find? p := by
  rw [List.getLast?_eq_head?_reverse, ← List.filter_reverse, filter_head?_eq_find?]

/-- On a newline-free value the reachability bound of the leading
dot-star is the whole string. -/
theorem nlRun_eq_length {v : Cs} (h : nlC ∉ v) : nlRun v = v.length := by
  induction v with
  | nil => rfl
  | cons x v ih =>
    have hx : x ≠ nlC := fun he => h (he ▸ List.mem_cons_self x v)
    rw [nlRun_cons v hx, ih (fun hm => h (List.mem_cons_of_mem x hm))]
    rfl

theorem mem_of_getLast?_some {α : Type} {l : List α} {a : α}
    (h : l.getLast? = some a) : a ∈ l := by
  rw [List.getLast?_eq_head?_reverse] at h
  have hm : a ∈ l.reverse := by
    cases hr : l.reverse with
    | nil => rw [hr] at h; exact absurd h (by simp)
    | cons x t =>
      rw [hr] at h
      simp only [List.head?_cons, Option.some.injEq] at h
      rw [← h]
      exact List.mem_cons_self x t
  rw [List.mem_reverse] at hm
  exact hm

/-- On a newline-free value the dollar anchor is just the end of the
string. -/
theorem fmDollar_eq_fm {rx : List RTok} {v : Cs} (h : nlC ∉ v) (i : Nat) :
    fmDollar rx (v.drop i) = fm rx (v.drop i) := by
  rw [fmDollar]
  have hlast : (v.drop i).getLast? ≠ some nlC := by
    intro he
    exact h (List.mem_of_mem_drop (mem_of_getLast?_some he))
  simp [hlast]

/-- The `#` operator removes the shortest matching prefix. -/
theorem opTrimStart_lazy (pat v : Cs) :
    opTrimStart false pat v = removeShortestPre pat v := by
  rw [opTrimStart, removeShortestPre, mEnd_lazy_find]

/-- The `##` operator removes the longest matching prefix. -/
theorem opTrimStart_greedy (pat v : Cs) :
    opTrimStart true pat v = removeLongestPre pat v := by
  rw [opTrimStart, removeLongestPre, mEnd_greedy_find]

/-- On a newline-free value the `%%` operator removes the longest
matching suffix. -/
theorem opTrimEnd_greedy (pat : Cs) {v : Cs} (h : nlC ∉ v) :
    opTrimEnd true pat v = removeLongestSuf pat v := by
  rw [opTrimEnd, removeLongestSuf, longestSufStart]
  rw [nlRun_eq_length h]
  have heq : ((List.range (v.length + 1)).filter fun i =>
      fmDollar (translatePat pat) (v.drop i)) =
      (List.range (v.length + 1)).filter fun i => fm (translatePat pat) (v.drop i) := by
    apply List.filter_congr
    intro i _
    rw [fmDollar_eq_fm h]
  rw [heq, filter_head?_eq_find?]
  rfl

/-- On a newline-free value the `%` operator removes the shortest
matching suffix. -/
theorem opTrimEnd_lazy (pat : Cs) {v : Cs} (h : nlC ∉ v) :
    opTrimEnd false pat v = removeShortestSuf pat v := by
  rw [opTrimEnd, removeShortestSuf, shortestSufStart]
  rw [nlRun_eq_length h]
  have heq : ((List.range (v.length + 1)).filter fun i =>
      fmDollar (translatePat pat) (v.drop i)) =
      (List.range (v.length + 1)).filter fun i => fm (translatePat pat) (v.drop i) := by
    apply List.filter_congr
    intro i _
    rw [fmDollar_eq_fm h]
  rw [heq, filter_getLast?_eq_rev_find?]
  rfl

theorem findSome?_eq_none_iff {α β : Type} {f : α → Option β} :
    ∀ {l : List α}, l.findSome? f = none ↔ ∀ x ∈ l, f x = none := by
  intro l
  induction l with
  | nil => simp [List.findSome?]
  | cons x l ih =>
    rw [List.findSome?_cons]
    cases hx : f x with
    | some b => simp [hx]
    | none => simp [hx, ih]

theorem findSome?_option_map {α β γ : Type} {g : α → Option β} {h : β → γ} :
    ∀ (l : List α), (l.findSome? fun a => (g a).map h) = (l.findSome? g).map h := by
  intro l
  induction l with
  | nil => simp [List.findSome?]
  | cons x l ih =>
    rw [List.findSome?_cons, List.findSome?_cons]
    cases hx : g x with
    | some b => simp [hx]
    | none => simp [hx, ih]

theorem range_findSome?_inv {α : Type} {f : Nat → Option α} :
    ∀ {N : Nat} {b : α}, (List.range N).findSome? f = some b →
      ∃ n, n < N ∧ f n = some b ∧ ∀ m, m < n → f m = none := by
  intro N
  induction N generalizing f with
  | zero => intro b h; rw [List.range_zero] at h; exact absurd h (by simp [List.findSome?])
  | succ N ih =>
    intro b h
    rw [List.range_succ_eq_map, List.findSome?_cons] at h
    cases h0 : f 0 with
    | some c =>
      rw [h0] at h
      simp only [Option.some.injEq] at h
      exact ⟨0, by omega, by rw [h0, h], by omega⟩
    | none =>
      rw [h0] at h
      rw [List.findSome?_map] at h
      obtain ⟨n, hn, hf, hmin⟩ := ih h
      refine ⟨n + 1, by omega, hf, ?_⟩
      intro m hm
      cases m with
      | zero => exact h0
      | succ m => exact hmin m (by omega)

/-- Scanning from position one when position zero does not match. -/
theorem firstMatch_cons_none {rx : List RTok} {x : Char} {s : Cs}
    (h : mEnd true rx (x :: s) = none) :
    firstMatch rx (x :: s) = (firstMatch rx s).map fun p => (p.1 + 1, p.2) := by
  rw [firstMatch, firstMatch]
  have hlen : (x :: s).length + 1 = (s.length + 1) + 1 := by simp
  rw [hlen, List.range_succ_eq_map, List.findSome?_cons]
  have h0 : (mEnd true rx ((x :: s).drop 0)).map (fun e => ((0 : Nat), e)) = none := by
    rw [List.drop_zero, h]
    rfl
  rw [h0, List.findSome?_map]
  have hcomp :
      ((fun i => (mEnd true rx ((x :: s).drop i)).map fun e => (i, e)) ∘ Nat.succ) =
      fun i => ((mEnd true rx (s.drop i)).map fun e => (i, e)).map
        fun p => (p.1 + 1, p.2) := by
    funext i
    simp only [Function.comp_apply, List.drop_succ_cons]
    cases hm : mEnd true rx (s.drop i) <;> simp [hm]
  rw [hcomp, findSome?_option_map]

theorem firstMatch_none_iff {rx : List RTok} {s : Cs} :
    firstMatch rx s = none ↔ ∀ i, i ≤ s.length → mEnd true rx (s.drop i) = none := by
  rw [firstMatch, findSome?_eq_none_iff]
  constructor
  · intro h i hi
    have := h i (by rw [List.mem_range]; omega)
    cases hm : mEnd true rx (s.drop i)
    · rfl
    · rw [hm] at this; exact absurd this (by simp)
  · intro h i hi
    rw [List.mem_range] at hi
    rw [h i (by omega)]
    rfl

/-- The fuel argument of the substitution scan is irrelevant as long
as it exceeds the string length. -/
theorem substAllGo_fuel {rx : List RTok} {repl : Cs} :
    ∀ (n : Nat) (f : Nat) (s : Cs), s.length < f → s.length ≤ n →
      substAllGo rx repl f s = substAllGo rx repl (s.length + 1) s := by
  intro n
  induction n with
  | zero =>
    intro f s hf hn
    have hs : s = [] := by
      cases s with
      | nil => rfl
      | cons x t => simp at hn
    subst hs
    cases f with
    | zero => omega
    | succ f => rfl
  | succ n ih =>
    intro f s hf hn
    cases f with
    | zero => omega
    | succ f =>
      cases s with
      | nil => rfl
      | cons x s =>
        rw [substAllGo, substAllGo]
        have hlen : (x :: s).length = s.length + 1 := rfl
        cases hm : mEnd true rx (x :: s) with
        | none =>
          have h1 : substAllGo rx repl f s = substAllGo rx repl (s.length + 1) s := by
            apply ih
            · simp at hf; omega
            · simp at hn; omega
          have h2 : substAllGo rx repl (s.length + 1) s =
              substAllGo rx repl (s.length + 1) s := rfl
          rw [h1]
          simp
        | some e =>
          cases e with
          | zero =>
            have h1 : substAllGo rx repl f s = substAllGo rx repl (s.length + 1) s := by
              apply ih
              · simp at hf; omega
              · simp at hn; omega
            rw [h1]
            simp
          | succ e =>
            have hlt : (s.drop e).length ≤ s.length := by
              rw [List.length_drop]
              omega
            have h1 : substAllGo rx repl f (s.drop e) =
                substAllGo rx repl ((s.drop e).length + 1) (s.drop e) := by
              apply ih
              · simp at hf; rw [List.length_drop]; omega
              · simp at hn; omega
            have h2 : substAllGo rx repl (s.length + 1) (s.drop e) =
                substAllGo rx repl ((s.drop e).length + 1) (s.drop e) := by
              apply ih
              · rw [List.length_drop]; omega
              · simp at hn; omega
            simp only [hlen]
            simp [h1, h2]

/-- A pattern that does not match the empty string never reports a
zero-length match. -/
theorem mEnd_ne_zero {rx : List RTok} (hne : fm rx [] = false) {gr : Bool} {t : Cs} :
    mEnd gr rx t ≠ some 0 := by
  intro h
  obtain ⟨_, hfm⟩ := mEnd_sound rx t 0 h
  rw [List.take_zero] at hfm
  rw [hne] at hfm
  exact absurd hfm (by simp)

/-- When no position matches, the global substitution is the
identity. -/
theorem opSubstAll_none {rx : List RTok} {repl : Cs} :
    ∀ {s : Cs}, firstMatch rx s = none → opSubstAll rx repl s = s := by
  intro s
  induction s with
  | nil =>
    intro h
    rw [firstMatch_none_iff] at h
    have h0 := h 0 (by simp)
    rw [List.drop_zero] at h0
    rw [opSubstAll, substAllGo, h0]
  | cons x s ih =>
    intro h
    rw [firstMatch_none_iff] at h
    have h0 := h 0 (by simp)
    rw [List.drop_zero] at h0
    rw [opSubstAll, substAllGo, h0]
    have hs : firstMatch rx s = none := by
      rw [firstMatch_none_iff]
      intro i hi
      have := h (i + 1) (by simp; omega)
      simpa using this
    have := ih hs
    rw [opSubstAll] at this
    simp only [List.length_cons]
    rw [this]

/-- One step of the global substitution: the leftmost match is
replaced and scanning resumes after it. -/
theorem opSubstAll_step {rx : List RTok} {repl : Cs} (hne : fm rx [] = false) :
    ∀ {s : Cs} {i e : Nat}, firstMatch rx s = some (i, e) →
      opSubstAll rx repl s = s.take i ++ repl ++ opSubstAll rx repl (s.drop (i + e)) := by
  intro s
  induction s with
  | nil =>
    intro i e h
    obtain ⟨n, hn, hf, _⟩ := range_findSome?_inv h
    simp only [List.length_nil] at hn
    have hn0 : n = 0 := by omega
    subst hn0
    rw [List.drop_zero] at hf
    cases hm : mEnd true rx ([] : Cs) with
    | none => rw [hm] at hf; exact absurd hf (by simp)
    | some w =>
      obtain ⟨hle, _⟩ := mEnd_sound rx [] w hm
      simp only [List.length_nil, Nat.le_zero] at hle
      subst hle
      exact absurd hm (mEnd_ne_zero hne)
  | cons x s ih =>
    intro i e h
    obtain ⟨n, hn, hf, hmin⟩ := range_findSome?_inv h
    cases hmn : mEnd true rx ((x :: s).drop n) with
    | none => rw [hmn] at hf; exact absurd hf (by simp)
    | some w =>
      rw [hmn] at hf
      simp only [Option.map_some', Option.some.injEq, Prod.mk.injEq] at hf
      obtain ⟨rfl, rfl⟩ := hf
      cases n with
      | zero =>
        rw [List.drop_zero] at hmn
        cases he : w with
        | zero => rw [he] at hmn; exact absurd hmn (mEnd_ne_zero hne)
        | succ e' =>
          subst he
          rw [opSubstAll, substAllGo, hmn]
          have hfuel : substAllGo rx repl ((x :: s).length) ((x :: s).drop (e' + 1)) =
              opSubstAll rx repl ((x :: s).drop (e' + 1)) := by
            rw [opSubstAll]
            apply substAllGo_fuel ((x :: s).length)
            · simp only [List.length_drop, List.length_cons]; omega
            · simp only [List.length_drop, List.length_cons]; omega
          simp only [List.length_cons] at hfuel ⊢
          rw [hfuel]
          simp
      | succ i' =>
        have h0 : mEnd true rx (x :: s) = none := by
          have hx := hmin 0 (by omega)
          rw [List.drop_zero] at hx
          cases hm0 : mEnd true rx (x :: s) with
          | none => rfl
          | some w0 => rw [hm0] at hx; exact absurd hx (by simp)
        have hshift := firstMatch_cons_none h0
        rw [h] at hshift
        cases hfm : firstMatch rx s with
        | none => rw [hfm] at hshift; exact absurd hshift.symm (by simp)
        | some p =>
          rw [hfm] at hshift
          simp only [Option.map_some', Option.some.injEq, Prod.mk.injEq] at hshift
          have hp : p = (i', w) := by
            obtain ⟨h1, h2⟩ := hshift
            have hp1 : p.1 = i' := by omega
            exact Prod.ext hp1 h2.symm
          subst hp
          have hrec := ih hfm
          rw [opSubstAll, substAllGo, h0]
          have hfuel : substAllGo rx repl ((x :: s).length) s = opSubstAll rx repl s := by
            rw [opSubstAll]
            apply substAllGo_fuel ((x :: s).length)
            · simp only [List.length_cons]; omega
            · simp only [List.length_cons]; omega
          simp only [List.length_cons] at hfuel ⊢
          rw [hfuel, hrec]
          simp only [List.take_succ_cons, List.drop_succ_cons, List.cons_append]
          have hdr : i' + 1 + w = (i' + w) + 1 := by omega
          rw [hdr, List.drop_succ_cons]

/-- Inversion of a successful leftmost search: the reported position
matches with the reported end, and every earlier position fails. -/
theorem firstMatch_some_inv {rx : List RTok} {s : Cs} {i e : Nat}
    (h : firstMatch rx s = some (i, e)) :
    mEnd true rx (s.drop i) = some e ∧ ∀ j, j < i → mEnd true rx (s.drop j) = none := by
  obtain ⟨n, hn, hf, hmin⟩ := range_findSome?_inv h
  cases hm : mEnd true rx (s.drop n) with
  | none => rw [hm] at hf; exact absurd hf (by simp)
  | some w =>
    rw [hm] at hf
    simp only [Option.map_some', Option.some.injEq, Prod.mk.injEq] at hf
    obtain ⟨rfl, rfl⟩ := hf
    refine ⟨hm, ?_⟩
    intro j hj
    have hx := hmin j hj
    cases hmj : mEnd true rx (s.drop j) with
    | none => rfl
    | some w2 => rw [hmj] at hx; exact absurd hx (by simp)

/-! ## Properties of the catalog operations -/

/-- `INSERT OR IGNORE INTO package_duplicate` touches no other
table. -/
theorem addDup_frame (db : DBState) (d : DupRow) :
    (addDup db d).packages = db.packages ∧
    (addDup db d).package_versions = db.package_versions ∧
    (addDup db d).package_spec = db.package_spec ∧
    (addDup db d).package_dependencies = db.package_dependencies ∧
    (addDup db d).fts = db.fts := by
  rw [addDup]
  split <;> exact ⟨rfl, rfl, rfl, rfl, rfl⟩

/-- The inserted row is present afterwards. -/
theorem mem_addDup_self (db : DBState) (d : DupRow) :
    d ∈ (addDup db d).package_duplicate := by
  rw [addDup]
  split
  · assumption
  · simp

/-- Rows present before stay present. -/
theorem mem_addDup_mono {db : DBState} {x : DupRow} (d : DupRow)
    (h : x ∈ db.package_duplicate) : x ∈ (addDup db d).package_duplicate := by
  rw [addDup]
  split
  · exact h
  · simp [h]

/-! ## Properties of uniq -/

/-- The worker of `uniq` produces no duplicates and nothing from the
seen set. -/
theorem uniq_go_nodup {α : Type} [DecidableEq α] :
    ∀ (l seen : List α), (uniq.go seen l).Nodup ∧ ∀ x ∈ uniq.go seen l, x ∉ seen := by
  intro l
  induction l with
  | nil => intro seen; exact ⟨List.nodup_nil, by intro x hx; exact absurd hx (by simp [uniq.go])⟩
  | cons a l ih =>
    intro seen
    rw [uniq.go]
    by_cases ha : a ∈ seen
    · rw [if_pos ha]
      exact ih seen
    · rw [if_neg ha]
      obtain ⟨hnd, hout⟩ := ih (a :: seen)
      refine ⟨List.nodup_cons.mpr ⟨?_, hnd⟩, ?_⟩
      · intro hmem
        exact hout a hmem (by simp)
      · intro x hx
        rcases List.mem_cons.mp hx with rfl | hx
        · exact ha
        · intro hxs
          exact hout x hx (List.mem_cons_of_mem a hxs)

/-- `uniq` keeps no duplicates. -/
theorem uniq_nodup {α : Type} [DecidableEq α] (l : List α) : (uniq l).Nodup :=
  (uniq_go_nodup l []).1

/-- The worker of `uniq` returns a sublist of its input. -/
theorem uniq_go_sublist {α : Type} [DecidableEq α] :
    ∀ (l seen : List α), List.Sublist (uniq.go seen l) l := by
  intro l
  induction l with
  | nil => intro seen; rw [uniq.go]
  | cons a l ih =>
    intro seen
    rw [uniq.go]
    by_cases ha : a ∈ seen
    · rw [if_pos ha]
      exact List.Sublist.cons a (ih seen)
    · rw [if_neg ha]
      exact List.Sublist.cons₂ a (ih (a :: seen))

/-- `uniq` keeps a sublist of the input, hence first-seen order. -/
theorem uniq_sublist {α : Type} [DecidableEq α] (l : List α) : List.Sublist (uniq l) l :=
  uniq_go_sublist l []

/-! ## Warning bookkeeping of the literal evaluator -/

/-- The grammar evaluator only ever raises undefined-variable
warnings, never `BashErrorWarning` material: one expansion. -/
theorem evalExp_warns (vars : VarMap) (e : ExpE) :
    ∀ w ∈ (evalExp vars e).2, bashMsg w = none := by
  rw [evalExp]
  cases odLookup vars e.name <;> simp [bashMsg]

/-- Double-quoted items raise only undefined-variable warnings. -/
theorem evalDToks_warns (vars : VarMap) :
    ∀ (ts : List DTok), ∀ w ∈ (evalDToks vars ts).2, bashMsg w = none := by
  intro ts
  induction ts with
  | nil => simp [evalDToks]
  | cons t ts ih =>
    intro w hw
    simp only [evalDToks] at hw
    simp only [List.mem_append] at hw
    rcases hw with hw | hw
    · cases t with
      | dlit s => exact absurd hw (by simp)
      | dexp e => exact evalExp_warns vars e w hw
    · exact ih w hw

/-- Value tokens raise only undefined-variable warnings. -/
theorem evalVToks_warns (vars : VarMap) :
    ∀ (ts : List VTok), ∀ w ∈ (evalVToks vars ts).2, bashMsg w = none := by
  intro ts
  induction ts with
  | nil => simp [evalVToks]
  | cons t ts ih =>
    intro w hw
    simp only [evalVToks] at hw
    simp only [List.mem_append] at hw
    rcases hw with hw | hw
    · cases t with
      | lit s => exact absurd hw (by simp)
      | squo s => exact absurd hw (by simp)
      | dquo items => exact evalDToks_warns vars items w hw
      | vexp e => exact evalExp_warns vars e w hw
    · exact ih w hw

/-- One evaluated line adds only undefined-variable warnings. -/
theorem evalLineStep_warns (acc : VarMap × List Warn) (ln : Option AssignT)
    (h : ∀ w ∈ acc.2, bashMsg w = none) :
    ∀ w ∈ (evalLineStep acc ln).2, bashMsg w = none := by
  cases ln with
  | none => exact h
  | some a =>
    obtain ⟨nm, toks⟩ := a
    intro w hw
    rw [evalLineStep] at hw
    simp only [List.mem_append] at hw
    rcases hw with hw | hw
    · exact h w hw
    · exact evalVToks_warns acc.1 toks w hw

/-- The line fold preserves the warnings invariant. -/
theorem foldl_lines_warns :
    ∀ (lns : List (Option AssignT)) (acc : VarMap × List Warn),
      (∀ w ∈ acc.2, bashMsg w = none) →
      ∀ w ∈ (lns.foldl evalLineStep acc).2, bashMsg w = none := by
  intro lns
  induction lns with
  | nil => intro acc h; simpa using h
  | cons ln lns ih =>
    intro acc h
    rw [List.foldl_cons]
    exact ih _ (evalLineStep_warns acc ln h)

/-- Every warning a successful literal evaluation collects is an
undefined-variable warning. -/
theorem literalW_warns {src : Cs} {r : VarMap × List Warn}
    (h : evalBashvarLiteralW src = some r) : ∀ w ∈ r.2, bashMsg w = none := by
  rw [evalBashvarLiteralW] at h
  cases hp : parseBashvarFile src with
  | none => rw [hp] at h; exact absurd h (by simp)
  | some lns =>
    rw [hp] at h
    simp only [Option.map_some', Option.some.injEq] at h
    subst h
    exact foldl_lines_warns lns ([], []) (by simp)

/-! ## The claims -/

/-- C1: the spec claims that every fragment accepted by the grammar
evaluator gets the identical mapping from the shell fallback.  This
fails: on the accepted fragment `a=\x27x\x5cny\x27` the literal
evaluator stores the four characters `x \x5c n y`, bash does the same
and echoes them verbatim, but the Python-side transport decode
`l.replace(backslash-n, newline)` (bashvar.py line 205) cannot tell a
literal backslash-n in the value from an encoded newline and returns
`x`, newline, `y` — a different mapping, with no warning raised. -/
theorem c1_transport_divergence :
    eval_bashvar_literal fragC1 = some [("a", String.mk valC1)] ∧
    evalBashvarExtW bashOracleC1 fragC1 = ([("a", String.mk ['x', nlC, 'y'])], []) ∧
    String.mk ['x', nlC, 'y'] ≠ String.mk valC1 := by decide

/-- C2 counterexample: the grammar rejects the append form; on `a+=1`
the literal evaluator raises `ParseException` instead of accepting and
appending. -/
theorem c2_counterexample : eval_bashvar_literal "a+=1".data = none := by decide

/-- C2 (amended): only the plain `=` operator exists in the grammar
(bashvar.py lines 72-76 build `varassign` as name, literal `=`,
value); `a+=1` is rejected with `ParseException`, `a=1` is accepted,
and any successful `varassign` parse has a literal equals sign
directly after the variable name. -/
theorem c2_only_plain_assignment :
    eval_bashvar_literal "a+=1".data = none ∧
    eval_bashvar_literal "a=1".data = some [("a", "1")] ∧
    ∀ (s : Cs) (res : AssignT × Cs), pVarassign s = some res →
      ∃ nm rest, pVarname s = some (nm, '=' :: rest) := by
  refine ⟨by decide, by decide, ?_⟩
  intro s res h
  rw [pVarassign] at h
  cases hv : pVarname s with
  | none => rw [hv] at h; exact absurd h (by simp)
  | some p =>
    obtain ⟨nm, r1⟩ := p
    rw [hv] at h
    simp only [Option.some_bind] at h
    cases r1 with
    | nil => exact absurd h (by simp)
    | cons c r2 =>
      by_cases hc : c = '='
      · subst hc
        exact ⟨nm, r2, rfl⟩
      · simp [hc] at h

/-- C2 witness: the accepted plain assignment, instantiating the
general shape statement. -/
theorem c2_witness :
    pVarassign "a=1".data = some (("a", [VTok.lit ['1']]), []) ∧
    ∃ nm rest, pVarname "a=1".data = some (nm, '=' :: rest) :=
  ⟨by decide,
   c2_only_plain_assignment.2.2 "a=1".data (("a", [VTok.lit ['1']]), []) (by decide)⟩

/-- C3 counterexample: a defines file with no `PKGNAME` still yields a
Package.  `load_defines` returns early but returns the inherited
entity, and `read_package_info` (abbsmeta.py lines 412-420) appends
every constructed package unconditionally: the group `grp` with one
nameless defines file produces one package, named after the group. -/
theorem c3_counterexample :
    read_package_info groupW [definesNoName] ≠ [] ∧
    (read_package_info groupW [definesNoName]).map (fun p => p.name) = ["grp"] := by
  decide

/-- C3 (amended): a defines file whose merged mapping lacks a truthy
`PKGNAME` is not skipped; `load_defines` returns early with the
inherited group identity — the group name, no dependencies, the
inherited version — and `read_package_info` still contributes one
package entity per defines file. -/
theorem c3_missing_pkgname (g : PackageGroupE) (fn : Option String)
    (result : VarMap) (err : Option String)
    (h : odLookup (odUpdate g.spec result) "PKGNAME" = none ∨
         odLookup (odUpdate g.spec result) "PKGNAME" = some "") :
    (group_package g fn result err).1.name = g.name ∧
    (group_package g fn result err).1.dependencies = [] ∧
    (group_package g fn result err).1.version = g.version ∧
    ∀ files, read_package_info g files =
      files.map fun d => (group_package g d.filename d.result d.err).1 := by
  rcases h with h | h <;>
    simp [group_package, load_defines, odPop, read_package_info, h]

/-- C3 witness: the concrete group and nameless defines file. -/
theorem c3_witness :
    odLookup (odUpdate groupW.spec definesNoName.result) "PKGNAME" = none ∧
    (group_package groupW definesNoName.filename definesNoName.result
        definesNoName.err).1.name = groupW.name :=
  ⟨by decide,
   (c3_missing_pkgname groupW definesNoName.filename definesNoName.result
      definesNoName.err (Or.inl (by decide))).1⟩

/-- C4: a name hit in a different tree records both locations in the
duplicate table and leaves `packages`, `package_versions`,
`package_spec` and `package_dependencies` untouched (abbsmeta.py
lines 336-346: the branch inserts the two duplicate rows and
returns). -/
theorem c4_different_tree_no_overwrite (selfName mainbranch : String)
    (branches : List String) (pkg : PackageE) (db : DBState) (e : PkgRow)
    (hfind : db.packages.find? (fun r => r.name = pkg.name) = some e)
    (htree : e.tree ≠ selfName) :
    (update_package selfName mainbranch branches pkg db).packages = db.packages ∧
    (update_package selfName mainbranch branches pkg db).package_versions
      = db.package_versions ∧
    (update_package selfName mainbranch branches pkg db).package_spec
      = db.package_spec ∧
    (update_package selfName mainbranch branches pkg db).package_dependencies
      = db.package_dependencies ∧
    (⟨pkg.name, selfName, pkg.category.getD "", pkg.sect, pkg.directory⟩ : DupRow)
      ∈ (update_package selfName mainbranch branches pkg db).package_duplicate ∧
    (⟨pkg.name, e.tree, e.category.getD "", e.sect, e.directory⟩ : DupRow)
      ∈ (update_package selfName mainbranch branches pkg db).package_duplicate := by
  have hu : update_package selfName mainbranch branches pkg db =
      addDup (addDup db ⟨pkg.name, selfName, pkg.category.getD "", pkg.sect, pkg.directory⟩)
        ⟨pkg.name, e.tree, e.category.getD "", e.sect, e.directory⟩ := by
    simp only [update_package.eq_def, hfind]
    rw [if_pos htree]
  rw [hu]
  refine ⟨?_, ?_, ?_, ?_, ?_, ?_⟩
  · rw [(addDup_frame _ _).1, (addDup_frame _ _).1]
  · rw [(addDup_frame _ _).2.1, (addDup_frame _ _).2.1]
  · rw [(addDup_frame _ _).2.2.1, (addDup_frame _ _).2.2.1]
  · rw [(addDup_frame _ _).2.2.2.1, (addDup_frame _ _).2.2.2.1]
  · exact mem_addDup_mono _ (mem_addDup_self _ _)
  · exact mem_addDup_self _ _

/-- C4 witness: `pkgA` is already recorded from tree `treeX`; offering
it from `treeB` leaves the catalog rows unchanged and records both
locations. -/
theorem c4_witness :
    dbW.packages.find? (fun r => r.name = pkgW.name) = some eRowW ∧
    eRowW.tree ≠ "treeB" ∧
    (update_package "treeB" "stable" ["stable"] pkgW dbW).packages = dbW.packages ∧
    (⟨pkgW.name, "treeB", pkgW.category.getD "", pkgW.sect, pkgW.directory⟩ : DupRow)
      ∈ (update_package "treeB" "stable" ["stable"] pkgW dbW).package_duplicate :=
  ⟨by decide, by decide,
   (c4_different_tree_no_overwrite "treeB" "stable" ["stable"] pkgW dbW eRowW
      (by decide) (by decide)).1,
   (c4_different_tree_no_overwrite "treeB" "stable" ["stable"] pkgW dbW eRowW
      (by decide) (by decide)).2.2.2.2.1⟩

/-- C5: the three quoted example expansions are correct, but the
general claim that substring extraction follows bash rules fails: the
code uses Python slicing (bashvar.py line 132), so a negative offset
combined with a length is read as a Python end bound.  With the same
value, bash gives `$\x7bs: -7:9\x7d = bcdefgh` while the evaluator
computes `var[-7:-7+9] = var[-7:2]`, the empty string. -/
theorem c5_substring_divergence :
    eval_bashvar_literal ("s=01234567890abcdefgh\na=".data ++ braceExp "s:7" ++ [nlC]
      ++ "b=".data ++ braceExp "s: -7:2" ++ [nlC]
      ++ "c=".data ++ braceExp "s%%fgh" ++ [nlC])
    = some [("s", "01234567890abcdefgh"), ("a", "7890abcdefgh"), ("b", "bc"),
        ("c", "01234567890abcde")] ∧
    applyAttr (ExpAttr.colon (-7) (some 9)) "01234567890abcdefgh".data = [] ∧
    bashSubstr "01234567890abcdefgh".data (-7) (some 9) = some "bcdefgh".data ∧
    eval_bashvar_literal ("s=01234567890abcdefgh\nd=".data ++ braceExp "s: -7:9" ++ [nlC])
      = some [("s", "01234567890abcdefgh"), ("d", "")] ∧
    applyAttr (ExpAttr.colon 1 (some (-25))) "01234567890abcdefgh".data = [] ∧
    bashSubstr "01234567890abcdefgh".data 1 (some (-25)) = none := by decide

/-- C6 counterexample: suffix trimming does not always remove the
claimed suffix.  The `%`/`%%` operators are implemented with a regex
`$` anchor searched by `re.search` (bashvar.py lines 103-105, 150-155)
whose dot cannot cross a newline: on the value `ab`, newline, `cd`
with pattern `d` nothing is trimmed, although `d` is a matching
suffix. -/
theorem c6_counterexample :
    opTrimEnd true ['d'] "ab\ncd".data = "ab\ncd".data ∧
    removeLongestSuf ['d'] "ab\ncd".data = "ab\nc".data ∧
    opTrimEnd true ['d'] "ab\ncd".data ≠ removeLongestSuf ['d'] "ab\ncd".data := by
  decide

/-- C6 (amended): prefix trimming behaves as claimed on every value;
suffix trimming behaves as claimed on newline-free values; the first
substitution replaces exactly the leftmost preferred match (with
greedy wildcard translation), and, for patterns that cannot match the
empty string, the global substitution replaces the leftmost match and
recurses on the remainder. -/
theorem c6_trim_subst_semantics (pat v repl : Cs) :
    opTrimStart false pat v = removeShortestPre pat v ∧
    opTrimStart true pat v = removeLongestPre pat v ∧
    (nlC ∉ v →
      opTrimEnd true pat v = removeLongestSuf pat v ∧
      opTrimEnd false pat v = removeShortestSuf pat v) ∧
    (firstMatch (translatePat pat) v = none →
      opSubstFirst (translatePat pat) repl v = v) ∧
    (∀ i e, firstMatch (translatePat pat) v = some (i, e) →
      opSubstFirst (translatePat pat) repl v = v.take i ++ repl ++ v.drop (i + e) ∧
      mEnd true (translatePat pat) (v.drop i) = some e ∧
      ∀ j, j < i → mEnd true (translatePat pat) (v.drop j) = none) ∧
    (fm (translatePat pat) [] = false →
      (firstMatch (translatePat pat) v = none →
        opSubstAll (translatePat pat) repl v = v) ∧
      ∀ i e, firstMatch (translatePat pat) v = some (i, e) →
        opSubstAll (translatePat pat) repl v =
          v.take i ++ repl ++ opSubstAll (translatePat pat) repl (v.drop (i + e))) := by
  refine ⟨opTrimStart_lazy pat v, opTrimStart_greedy pat v,
    fun h => ⟨opTrimEnd_greedy pat h, opTrimEnd_lazy pat h⟩, ?_, ?_, ?_⟩
  · intro h
    rw [opSubstFirst, h]
  · intro i e h
    exact ⟨by rw [opSubstFirst, h], (firstMatch_some_inv h).1, (firstMatch_some_inv h).2⟩
  · intro hne
    exact ⟨fun h => opSubstAll_none h, fun i e h => opSubstAll_step hne h⟩

/-- C6 witness: pattern `bc` on the newline-free value `abcbc` with
replacement `z`. -/
theorem c6_witness :
    (nlC ∉ ("abcbc".data : Cs) ∧
      opTrimEnd true ['b', 'c'] "abcbc".data = removeLongestSuf ['b', 'c'] "abcbc".data ∧
      opTrimEnd false ['b', 'c'] "abcbc".data
        = removeShortestSuf ['b', 'c'] "abcbc".data) ∧
    (firstMatch (translatePat ['b', 'c']) "abcbc".data = some (1, 2) ∧
      opSubstFirst (translatePat ['b', 'c']) ['z'] "abcbc".data
        = List.take 1 "abcbc".data ++ ['z'] ++ List.drop (1 + 2) "abcbc".data) ∧
    (fm (translatePat ['b', 'c']) [] = false ∧
      opSubstAll (translatePat ['b', 'c']) ['z'] "abcbc".data
        = List.take 1 "abcbc".data ++ ['z']
          ++ opSubstAll (translatePat ['b', 'c']) ['z'] (List.drop (1 + 2) "abcbc".data)) :=
  ⟨⟨by decide, (c6_trim_subst_semantics ['b', 'c'] "abcbc".data ['z']).2.2.1 (by decide)⟩,
   ⟨by decide,
    ((c6_trim_subst_semantics ['b', 'c'] "abcbc".data ['z']).2.2.2.2.1 1 2 (by decide)).1⟩,
   ⟨by decide,
    ((c6_trim_subst_semantics ['b', 'c'] "abcbc".data ['z']).2.2.2.2.2 (by decide)).2
      1 2 (by decide)⟩⟩

/-- C7: dependency parsing splits the value on whitespace and matches
each token with `re_packagerel`; the quoted `PKGDEP` example produces
exactly the two claimed tuples with no error; an invalid token is
excised without affecting the other tokens of the same value; and the
final list is duplicate-free in first-seen order (a sublist of the
parse order). -/
theorem c7_dependency_parsing :
    pySplitWs "foo>=1.0 bar".data = ["foo>=1.0".data, "bar".data] ∧
    (load_defines basePkgW (some "defines")
        [("PKGNAME", "baz"), ("PKGDEP", "foo>=1.0 bar")] none).dependencies
      = [("baz", "foo", some ">=", some "1.0", "", "PKGDEP"),
         ("baz", "bar", none, none, "", "PKGDEP")] ∧
    (load_defines basePkgW (some "defines")
        [("PKGNAME", "baz"), ("PKGDEP", "foo>=1.0 bar")] none).err_defines = none ∧
    (∀ (name rel arch : String) (pre post : List Cs) (bad : Cs),
        matchPackagerel bad = none →
        (parseRelValue name rel arch (pre ++ bad :: post)).1
          = (parseRelValue name rel arch (pre ++ post)).1) ∧
    (∀ (l : List DepT), (uniq l).Nodup ∧ List.Sublist (uniq l) l) := by
  refine ⟨by decide, by decide, by decide, ?_, fun l => ⟨uniq_nodup l, uniq_sublist l⟩⟩
  intro name rel arch pre post bad hbad
  induction pre with
  | nil => simp only [List.nil_append, parseRelValue, hbad]
  | cons t pre ih =>
    simp only [List.cons_append, parseRelValue]
    cases hm : matchPackagerel t with
    | none =>
      simp only [hm]
      exact ih
    | some q =>
      obtain ⟨dp, ro, dv⟩ := q
      simp only [hm]
      exact congrArg _ ih

/-- C7 witness: the invalid token `a<b` between two valid tokens is
excised, and `uniq` removes an exact duplicate tuple. -/
theorem c7_witness :
    matchPackagerel "a<b".data = none ∧
    (parseRelValue "baz" "PKGDEP" "" ["foo>=1.0".data, "a<b".data, "bar".data]).1
      = (parseRelValue "baz" "PKGDEP" "" ["foo>=1.0".data, "bar".data]).1 ∧
    (uniq ([("baz", "foo", some ">=", some "1.0", "", "PKGDEP"),
            ("baz", "foo", some ">=", some "1.0", "", "PKGDEP")] : List DepT)).Nodup :=
  ⟨by decide,
   c7_dependency_parsing.2.2.2.1 "baz" "PKGDEP" "" ["foo>=1.0".data] ["bar".data]
     "a<b".data (by decide),
   (c7_dependency_parsing.2.2.2.2 _).1⟩

/-- C8: a revision already recorded in the progress table is skipped
entirely (the guard returns the state before any body effect runs);
and a location whose stored rows all carry a commit time at least the
on-disk time is neither selected for deletion nor selected for
re-reading. -/
theorem c8_idempotent_selection :
    (∀ (body : SrcState → Int → SrcState) (st : SrcState) (mid : Int),
        ridRecorded st mid = true → scan_abbs_tree_src body st mid = st) ∧
    (∀ (lastdirs : List LastDirRow) (localdirs : List (String × Int))
        (p : String) (bm : Int),
        localdirs.find? (fun b => b.1 = p) = some (p, bm) →
        (∃ a ∈ lastdirs, a.fullpath = p) →
        (∀ a ∈ lastdirs, a.fullpath = p → ∃ m, a.mtime = some m ∧ bm ≤ m) →
        (∀ a ∈ pkgrmOf lastdirs localdirs, a.fullpath ≠ p) ∧
        rescanSelected localdirs lastdirs p = false) := by
  constructor
  · intro body st mid h
    rw [scan_abbs_tree_src, if_pos h]
  · intro lastdirs localdirs p bm hfind hex hall
    constructor
    · intro a ha hp
      rw [pkgrmOf, List.mem_filter] at ha
      obtain ⟨hmem, hcond⟩ := ha
      obtain ⟨m, hm, hle⟩ := hall a hmem hp
      simp only [hp, hfind, hm] at hcond
      simp at hcond
      omega
    · obtain ⟨a0, ha0, hp0⟩ := hex
      have hmem0 : a0 ∈ lastdirs.filter (fun a => a.fullpath = p) :=
        List.mem_filter.mpr ⟨ha0, by simp [hp0]⟩
      have hne : (lastdirs.filter fun a => a.fullpath = p).isEmpty = false := by
        cases hfl : lastdirs.filter fun a => a.fullpath = p with
        | nil => rw [hfl] at hmem0; exact absurd hmem0 (by simp)
        | cons y ys => rfl
      simp only [rescanSelected, hfind]
      rw [hne, Bool.false_or]
      simp only [List.any_eq_false]
      intro a ha
      rw [List.mem_filter] at ha
      obtain ⟨hmem, hfp⟩ := ha
      have hfp2 : a.fullpath = p := by simpa using hfp
      obtain ⟨m, hm, hle⟩ := hall a hmem hfp2
      simp only [hm]
      simp
      omega

/-- C8 witness: revision 7 is recorded and a body clearing the
progress table is not run; a location whose stored time equals the
disk time is neither deleted nor re-read. -/
theorem c8_witness :
    ridRecorded srcStW 7 = true ∧
    scan_abbs_tree_src (fun st _ => { st with package_rel := [] }) srcStW 7 = srcStW ∧
    (∀ a ∈ pkgrmOf lastdirsW localdirsW, a.fullpath ≠ "extra-utils/foo") ∧
    rescanSelected localdirsW lastdirsW "extra-utils/foo" = false :=
  ⟨by decide,
   c8_idempotent_selection.1 (fun st _ => { st with package_rel := [] }) srcStW 7
     (by decide),
   c8_idempotent_selection.2 lastdirsW localdirsW "extra-utils/foo" 100 (by decide)
     (by decide)
     (by
       intro a ha hp
       simp only [lastdirsW, List.mem_singleton] at ha
       subst ha
       exact ⟨100, rfl, by omega⟩)⟩

/-- C9: the group travels through `PackageGroup.package` unchanged —
the constructed package starts from copies of the shared fields and
`load_defines` only touches the copies — and every defines file of a
group is therefore derived from the same group state. -/
theorem c9_group_unchanged (g : PackageGroupE) (fn : Option String) (result : VarMap)
    (err : Option String) :
    (group_package g fn result err).2 = g ∧
    (group_package g fn result err).2.spec = g.spec ∧
    (group_package g fn result err).2.version = g.version ∧
    (group_package g fn result err).2.release = g.release ∧
    (group_package g fn result err).2.vermask = g.vermask ∧
    (group_package g fn result err).2.name = g.name ∧
    ∀ (files : List DefinesFile),
      read_package_info g files
        = files.map fun d => (group_package g d.filename d.result d.err).1 :=
  ⟨rfl, rfl, rfl, rfl, rfl, rfl, fun _ => rfl⟩

/-- C10: the returned mapping is always that of the executed path, the
diagnostic is `none` exactly when no `BashErrorWarning` message was
collected, and the literal path never produces a `BashErrorWarning`
(its warnings are all undefined-variable warnings, which are logged
but excluded from the diagnostic). -/
theorem c10_msg_semantics (oracle : Cs → BashOut) (src : Cs) :
    (eval_bashvar_msg oracle src).1 = (evalBashvarPathW oracle src).1 ∧
    ((eval_bashvar_msg oracle src).2 = none ↔
      ∀ w ∈ (evalBashvarPathW oracle src).2, bashMsg w = none) ∧
    ∀ r, evalBashvarLiteralW src = some r → ∀ w ∈ r.2, bashMsg w = none := by
  refine ⟨rfl, ?_, fun r h => literalW_warns h⟩
  show (if ((evalBashvarPathW oracle src).2.filterMap bashMsg).isEmpty then none
      else some (String.intercalate "\n"
        ((evalBashvarPathW oracle src).2.filterMap bashMsg))) = none ↔ _
  by_cases he : ((evalBashvarPathW oracle src).2.filterMap bashMsg).isEmpty = true
  · rw [if_pos he]
    have hnil : (evalBashvarPathW oracle src).2.filterMap bashMsg = [] :=
      List.isEmpty_iff.mp he
    simp only [true_iff]
    exact fun w hw => List.filterMap_eq_nil_iff.mp hnil w hw
  · rw [if_neg he]
    constructor
    · intro hcon
      exact absurd hcon (by simp)
    · intro hall
      exact absurd (List.isEmpty_iff.mpr (List.filterMap_eq_nil_iff.mpr hall)) he
